import Mathlib

/-!
Verification of the `chunked-bytes` buffer engine.

The development shallowly embeds the live modules of the crate:

* `src/chunked.rs` — the engine core `Inner` (staging buffer + chunk queue);
* `src/loosely.rs` — the loose policy variant (thin 1:1 wrapper of `Inner`);
* `src/strictly.rs` — the strict policy variant (`Inner` plus an independent
  usable-capacity counter `cap`).

Bytes are modelled as `Nat`, byte buffers as `List Nat`.  `bytes::Bytes`
values carry a storage identifier `sid` modelling the identity of the shared
underlying allocation (two `Bytes` values with the same `sid` reference the
same storage; slicing operations of the `bytes` crate preserve the storage).
`bytes::BytesMut` is modelled by its content together with the capacity of the
usable region starting at the current view; operations of the `bytes` crate
used by the source (`advance`, `split`, `reserve`, `advance_mut`,
`copy_to_bytes`) are modelled from their documented behaviour, with `reserve`
abstracted to "the capacity becomes at least `len + additional`" (the model
allocates exactly that much; allocator over-allocation is immaterial to the
byte-content claims).  A fallible operation (one that panics in Rust, or — in
one documented spot — loops forever) returns `Option`: `none` is a contract
violation / divergence.
-/

namespace CB

/-- The type `usize` is modelled as `Nat`; its maximal value for saturating arithmetic. -/
def USIZE_MAX : Nat := 2 ^ 64 - 1

/-- Saturating conversion of an unbounded sum into `usize`,
used to model `usize::saturating_add`. -/
def usizeSat (n : Nat) : Nat := min n USIZE_MAX

/-- Model of `bytes::Bytes`: an immutable, reference-counted byte range.
`sid` identifies the underlying shared storage; `data` is the visible range.
`Bytes::advance`/`split_to` keep referring to the same storage, so they keep
`sid`. -/
structure Bytes where
  sid : Nat
  data : List Nat
deriving Repr, DecidableEq

/-- Model of `Bytes::len`. -/
def Bytes.len (b : Bytes) : Nat := b.data.length

/-- Model of `Bytes::advance(cnt)` for `cnt` within bounds: drops `cnt` front bytes,
still referencing the same storage. -/
def Bytes.advance (b : Bytes) (cnt : Nat) : Bytes := ⟨b.sid, b.data.drop cnt⟩

/-- Model of `bytes::BytesMut`: the staging buffer.  `data` is the written
content of the current view; `cap` is the capacity of the usable region
starting at the current view origin (so `data.length ≤ cap` for well-formed
buffers).  Advancing the read position shrinks the region, hence `cap`. -/
structure BytesMut where
  data : List Nat
  cap : Nat
deriving Repr, DecidableEq

/-- Model of `BytesMut::len`. -/
def BytesMut.len (m : BytesMut) : Nat := m.data.length

/-- Model of `Buf::advance` for `BytesMut`: panics (`none`) when `cnt` exceeds the
length; otherwise consumes `cnt` front bytes, shrinking the usable region. -/
def BytesMut.advance (m : BytesMut) (cnt : Nat) : Option BytesMut :=
  if cnt ≤ m.data.length then some ⟨m.data.drop cnt, m.cap - cnt⟩ else none

/-- Model of `BytesMut::reserve(additional)`: afterwards the capacity is at least
`len + additional`.  The model grants exactly the requested amount; the
reuse strategy of the allocator is abstracted away. -/
def BytesMut.reserve (m : BytesMut) (additional : Nat) : BytesMut :=
  ⟨m.data, max m.cap (m.data.length + additional)⟩

/-- Model of `BytesMut::split()`: removes and returns the whole written content,
leaving the buffer empty with the remainder of the region as capacity. -/
def BytesMut.split (m : BytesMut) : List Nat × BytesMut :=
  (m.data, ⟨[], m.cap - m.data.length⟩)

/-- The write-commit protocol on the staging buffer: the caller fills the
spare-capacity view returned by `bytes_mut`/`chunk_mut` with the bytes `bs`
and then calls `advance_mut (bs.length)`.  The committed bytes must fit the
usable region (`BufMut::advance_mut` past the capacity is a contract
violation), hence `none` in that case. -/
def BytesMut.fill_commit (m : BytesMut) (bs : List Nat) : Option BytesMut :=
  if m.data.length + bs.length ≤ m.cap then some ⟨m.data ++ bs, m.cap⟩ else none

/-- From `chunked.rs`: result report of `Inner::advance` (enum `AdvanceStopped`). -/
inductive AdvanceStopped where
  | InChunk : AdvanceStopped
  | InStaging : Nat → AdvanceStopped
deriving Repr, DecidableEq

/-- From `chunked.rs`: the engine core `struct Inner`.  The `VecDeque<Bytes>` is a
list whose head is the front of the queue.  `fresh` is a model artefact: the
next storage identifier handed to a `Bytes` frozen out of the staging buffer
(each freeze produces a chunk backed by the staging allocation, distinct from
chunks ingested from outside). -/
structure Inner where
  staging : BytesMut
  chunks : List Bytes
  chunk_size : Nat
  fresh : Nat
deriving Repr, DecidableEq

/-- Model of `Inner::with_chunk_size` starting from `Default` (empty staging, no
chunks). -/
def Inner.with_chunk_size (chunk_size : Nat) : Inner :=
  ⟨⟨[], 0⟩, [], chunk_size, 0⟩

/-- Model of `Inner::is_empty`. -/
def Inner.is_empty (i : Inner) : Bool :=
  i.chunks.isEmpty && i.staging.data.isEmpty

/-- Model of `Inner::staging_len`. -/
def Inner.staging_len (i : Inner) : Nat := i.staging.data.length

/-- Model of `Inner::staging_capacity`. -/
def Inner.staging_capacity (i : Inner) : Nat := i.staging.cap

/-- Model of `Inner::push_chunk`: appends a chunk at the tail of the queue
(the source `debug_assert!`s that the chunk is non-empty). -/
def Inner.push_chunk (i : Inner) (chunk : Bytes) : Inner :=
  { i with chunks := i.chunks ++ [chunk] }

/-- Model of `Inner::flush`: if the staging buffer is non-empty, split its content off
and freeze it into a new chunk appended to the queue.  The frozen chunk is
backed by the (unique) staging allocation, modelled by the fresh storage id. -/
def Inner.flush (i : Inner) : Inner :=
  if i.staging.data.isEmpty then i
  else
    { i with
      staging := (BytesMut.split i.staging).2
      chunks := i.chunks ++ [⟨i.fresh, i.staging.data⟩]
      fresh := i.fresh + 1 }

/-- Model of `Inner::into_chunks`: the consuming iterator; a non-empty staging buffer is
frozen in as the final chunk. -/
def Inner.into_chunks (i : Inner) : List Bytes :=
  if i.staging.data.isEmpty then i.chunks
  else i.chunks ++ [⟨i.fresh, i.staging.data⟩]

/-- Model of `Inner::reserve_staging`: the staging reservation heuristic.  Computes
`cutoff = cap.saturating_add(cap / 2)`; if `cutoff > chunk_size`, flushes the
staging content first and requests `chunk_size` additional bytes, otherwise
requests `chunk_size - cap`.  Returns the updated state and the resulting
staging capacity (the source returns `self.staging.capacity()`). -/
def Inner.reserve_staging (i : Inner) : Inner × Nat :=
  let cap := i.staging.cap
  let cutoff := usizeSat (cap + cap / 2)
  if cutoff > i.chunk_size then
    let j := Inner.flush i
    let st := BytesMut.reserve j.staging i.chunk_size
    ({ j with staging := st }, st.cap)
  else
    let st := BytesMut.reserve i.staging (i.chunk_size - cap)
    ({ i with staging := st }, st.cap)

/-- Model of `Inner::remaining`: fold over the queue starting from the staging
length, as in the source. -/
def Inner.remaining (i : Inner) : Nat :=
  i.chunks.foldl (fun sum c => sum + c.data.length) i.staging.data.length

/-- Model of `Inner::chunk` (the front slice): the bytes of the front chunk, or the staging
bytes when no chunk is queued. -/
def Inner.chunk (i : Inner) : List Nat :=
  match i.chunks with
  | c :: _ => c.data
  | [] => i.staging.data

/-- The loop of `Inner::advance` over the chunk queue: pops fully consumed
chunks; if `cnt` lands strictly inside a chunk, advances that chunk and stops
(`none` = stopped in a chunk); once the queue is exhausted, reports the
remainder to be consumed from staging (`some rem`). -/
def advanceLoop : List Bytes → Nat → List Bytes × Option Nat
  | [], cnt => ([], some cnt)
  | c :: rest, cnt =>
    if cnt < c.data.length then (Bytes.advance c cnt :: rest, none)
    else advanceLoop rest (cnt - c.data.length)

/-- Model of `Inner::advance`: consumes `cnt` bytes from the front, returning where the
advance stopped.  `none` models the panic of `BytesMut::advance` when the
remainder exceeds the staging length. -/
def Inner.advance (i : Inner) (cnt : Nat) : Option (Inner × AdvanceStopped) :=
  match advanceLoop i.chunks cnt with
  | (chunks2, none) => some ({ i with chunks := chunks2 }, AdvanceStopped.InChunk)
  | (chunks2, some rem) =>
    match BytesMut.advance i.staging rem with
    | none => none
    | some st => some ({ i with chunks := chunks2, staging := st },
                       AdvanceStopped.InStaging rem)

/-- Model of `Inner::chunks_vectored`: with a destination array of `k` entries, fills
descriptors for the queued chunks in order (up to `k`), then one for the
staging bytes if an entry remains and staging is non-empty.  The model returns
the list of filled descriptors; the source mutates `dst` in place and returns
the count, and takes `&self`, leaving the buffer state unchanged. -/
def Inner.chunks_vectored (i : Inner) (k : Nat) : List (List Nat) :=
  let filled := (i.chunks.take k).map Bytes.data
  if filled.length < k ∧ ¬ i.staging.data.isEmpty then filled ++ [i.staging.data]
  else filled

/-- The loop of `Inner::copy_to_bytes` (reached only with a non-empty queue):
returns the bytes copied out of the chunks, the queue afterwards, and the
number of bytes still to be taken from staging. -/
def copyLoop : List Bytes → Nat → List Nat × List Bytes × Nat
  | [], to_copy => ([], [], to_copy)
  | c :: rest, to_copy =>
    if c.data.length > to_copy then
      (c.data.take to_copy, Bytes.advance c to_copy :: rest, 0)
    else
      let r := copyLoop rest (to_copy - c.data.length)
      (c.data ++ r.1, r.2.1, r.2.2)

/-- Model of `Inner::copy_to_bytes(len)`.  Fast path: with no queued chunks this is
`staging.copy_to_bytes(len)`, i.e. `split_to(len).freeze()`, which panics
(`none`) when `len` exceeds the staging length; the result is a zero-copy
slice of the staging allocation.  Slow path: `to_copy = min(len, remaining)`
bytes are copied into a fresh buffer across chunks and then staging. -/
def Inner.copy_to_bytes (i : Inner) (len : Nat) : Option (Inner × Bytes) :=
  if i.chunks.isEmpty then
    if len ≤ i.staging.data.length then
      some ({ i with
                staging := ⟨i.staging.data.drop len, i.staging.cap - len⟩
                fresh := i.fresh + 1 },
            ⟨i.fresh, i.staging.data.take len⟩)
    else none
  else
    let to_copy := min len i.remaining
    let r := copyLoop i.chunks to_copy
    some ({ i with
              chunks := r.2.1
              staging := ⟨i.staging.data.drop r.2.2, i.staging.cap - r.2.2⟩
              fresh := i.fresh + 1 },
          ⟨i.fresh, r.1 ++ i.staging.data.take r.2.2⟩)

/-- The unread byte sequence of the buffer in read order: chunks front to
back, then the staging content. -/
def Inner.readout (i : Inner) : List Nat :=
  (i.chunks.map Bytes.data).flatten ++ i.staging.data

/-- From `loosely.rs`: `<ChunkedBytes as BufMut>::advance_mut` — commit of bytes
the caller wrote into the writable view.  Delegates 1:1 to the staging
commit of the staging buffer; `bs` are the committed bytes. -/
def Loose.advance_mut (i : Inner) (bs : List Nat) : Option Inner :=
  match BytesMut.fill_commit i.staging bs with
  | some st => some { i with staging := st }
  | none => none

/-- From `loosely.rs`: `<ChunkedBytes as BufMut>::bytes_mut` — if the staging
buffer is full, runs the reservation step first; the returned view is the
whole spare capacity of the staging buffer.  The model returns the updated
state and the view length. -/
def Loose.bytes_mut (i : Inner) : Inner × Nat :=
  if i.staging.data.length = i.staging.cap then
    let r := i.reserve_staging
    (r.1, r.1.staging.cap - r.1.staging.data.length)
  else (i, i.staging.cap - i.staging.data.length)

/-- A committed staging write against the loose variant: obtain the writable
view (`bytes_mut`), fill it with `bs` (which must fit the view) and commit. -/
def Loose.stage_write (i : Inner) (bs : List Nat) : Option Inner :=
  let r := Loose.bytes_mut i
  if bs.length ≤ r.2 then Loose.advance_mut r.1 bs else none

/-- From `loosely.rs`: `ChunkedBytes::put_bytes` — zero-copy ingestion: if the
slice is non-empty, flush the staging buffer and append the slice, unchanged,
as the next chunk. -/
def Loose.put_bytes (i : Inner) (chunk : Bytes) : Inner :=
  if chunk.data.isEmpty then i
  else Inner.push_chunk (Inner.flush i) chunk

/-- From `loosely.rs`: `<ChunkedBytes as Buf>::advance` — delegates to the engine
core, discarding the stop report. -/
def Loose.advance (i : Inner) (cnt : Nat) : Option Inner :=
  match Inner.advance i cnt with
  | some r => some r.1
  | none => none

/-- From `strictly.rs`: `struct ChunkedBytes` — the engine core plus the
independently tracked usable-capacity ceiling `cap` of the staging buffer. -/
structure Strict where
  inner : Inner
  cap : Nat
deriving Repr, DecidableEq

/-- From `strictly.rs`: `ChunkedBytes::with_chunk_size_limit`. -/
def Strict.with_chunk_size_limit (chunk_size : Nat) : Strict :=
  ⟨Inner.with_chunk_size chunk_size, 0⟩

/-- From `strictly.rs`: `ChunkedBytes::chunk_size_limit`. -/
def Strict.chunk_size_limit (s : Strict) : Nat := s.inner.chunk_size

/-- From `strictly.rs`: `ChunkedBytes::flush` (debug-asserts that the staging
length is within the limit, then delegates). -/
def Strict.flush (s : Strict) : Strict := { s with inner := s.inner.flush }

/-- The `while src.len() > chunk_size` splitting loop of the strict
`put_bytes`, with an explicit fuel for structural recursion: each pushed
piece is a `split_to`-slice of the source (same storage).  With `0 < L` the
loop removes at least one byte of source per step, so a fuel of
`b.data.length` (as used by `splitAll`) always suffices.  The loop of the
source does not terminate when the limit is zero and the source longer than
zero; `Strict.put_bytes` maps that diverging case to `none`. -/
def splitAllFuel : Nat → Nat → Bytes → List Bytes
  | 0, _, b => [b]
  | fuel + 1, L, b =>
    if 0 < L ∧ L < b.data.length then
      ⟨b.sid, b.data.take L⟩ :: splitAllFuel fuel L ⟨b.sid, b.data.drop L⟩
    else [b]

/-- The list of chunks pushed by the strict `put_bytes` splitting loop. -/
def splitAll (L : Nat) (b : Bytes) : List Bytes :=
  splitAllFuel b.data.length L b

/-- From `strictly.rs`: `ChunkedBytes::put_bytes` — flush, then append the source
split into limit-sized pieces, the last piece being the (≤ limit) remainder.
With a zero limit and a non-empty source the source loops forever: `none`. -/
def Strict.put_bytes (s : Strict) (src : Bytes) : Option Strict :=
  if src.data.isEmpty then some s
  else if s.inner.chunk_size = 0 then none
  else some { s with
              inner := (splitAll s.inner.chunk_size src).foldl
                Inner.push_chunk (Inner.flush s.inner) }

/-- From `strictly.rs`: `<ChunkedBytes as BufMut>::bytes_mut` — when the staging
length has reached `cap`, renegotiate: reserve staging and set
`cap = min(new_cap, chunk_size_limit)`.  The returned view is the raw spare
capacity clamped to `min(raw_len, cap)`.  Returns the updated state and the
view length. -/
def Strict.bytes_mut (s : Strict) : Strict × Nat :=
  if s.inner.staging.data.length = s.cap then
    let r := s.inner.reserve_staging
    let s1 : Strict := ⟨r.1, min r.2 s.chunk_size_limit⟩
    (s1, min (s1.inner.staging.cap - s1.inner.staging.data.length) s1.cap)
  else
    (s, min (s.inner.staging.cap - s.inner.staging.data.length) s.cap)

/-- From `strictly.rs`: `<ChunkedBytes as BufMut>::advance_mut` — asserts that the
new staging length does not exceed `cap` (`none` on violation), then commits
into the staging buffer. -/
def Strict.advance_mut (s : Strict) (bs : List Nat) : Option Strict :=
  if s.inner.staging.data.length + bs.length ≤ s.cap then
    match BytesMut.fill_commit s.inner.staging bs with
    | some st => some { s with inner := { s.inner with staging := st } }
    | none => none
  else none

/-- A committed staging write against the strict variant: obtain the writable
view (`bytes_mut`), fill it with `bs` (which must fit the view) and commit. -/
def Strict.stage_write (s : Strict) (bs : List Nat) : Option Strict :=
  let r := Strict.bytes_mut s
  if bs.length ≤ r.2 then Strict.advance_mut r.1 bs else none

/-- From `strictly.rs`: `<ChunkedBytes as Buf>::advance` — delegates to the engine
core; when the advance ended inside the staging buffer having consumed `adv`
bytes there, decrements `cap` by `adv`. -/
def Strict.advance (s : Strict) (cnt : Nat) : Option Strict :=
  match Inner.advance s.inner cnt with
  | none => none
  | some (i2, AdvanceStopped.InChunk) => some { s with inner := i2 }
  | some (i2, AdvanceStopped.InStaging adv) => some ⟨i2, s.cap - adv⟩

/-- From `strictly.rs`: `ChunkedBytes::drain_chunks` — removes all queued chunks
(the iterator drains the queue eagerly). -/
def Strict.drain_chunks (s : Strict) : Strict :=
  { s with inner := { s.inner with chunks := [] } }

/-- A write operation of a round-trip trace: a committed staging write of the
given bytes, or a zero-copy ingestion of a `Bytes` value. -/
inductive WOp where
  | stage : List Nat → WOp
  | ingest : Bytes → WOp
deriving Repr, DecidableEq

/-- The bytes a write operation writes. -/
def WOp.bytes : WOp → List Nat
  | .stage bs => bs
  | .ingest b => b.data

/-- The concatenation of all bytes written by a trace of writes. -/
def writtenBytes (ws : List WOp) : List Nat := (ws.map WOp.bytes).flatten

/-- Apply a write operation to the loose variant. -/
def Loose.applyWrite (i : Inner) : WOp → Option Inner
  | .stage bs => Loose.stage_write i bs
  | .ingest b => some (Loose.put_bytes i b)

/-- Run a trace of writes against the loose variant. -/
def Loose.applyWrites : Inner → List WOp → Option Inner
  | i, [] => some i
  | i, op :: ops =>
    match Loose.applyWrite i op with
    | some j => Loose.applyWrites j ops
    | none => none

/-- Apply a write operation to the strict variant. -/
def Strict.applyWrite (s : Strict) : WOp → Option Strict
  | .stage bs => Strict.stage_write s bs
  | .ingest b => Strict.put_bytes s b

/-- Run a trace of writes against the strict variant. -/
def Strict.applyWrites : Strict → List WOp → Option Strict
  | s, [] => some s
  | s, op :: ops =>
    match Strict.applyWrite s op with
    | some t => Strict.applyWrites t ops
    | none => none

/-- A read operation of a round-trip trace: read `cnt` bytes from the front
slice (`chunk`) and advance past them, or read `cnt` bytes from the
descriptors of a vectored gather with a `k`-entry destination and advance
past them. -/
inductive ROp where
  | fromFront : Nat → ROp
  | fromGather : Nat → Nat → ROp
deriving Repr, DecidableEq

/-- Perform a read step against the engine core: the bytes actually read come
from the front slice (resp. from the gathered descriptors), never beyond what
the view exposes, and the read cursor is then advanced past them. -/
def Inner.readStep (i : Inner) : ROp → Option (List Nat × Inner)
  | .fromFront cnt =>
    if cnt ≤ (Inner.chunk i).length then
      match Inner.advance i cnt with
      | some r => some ((Inner.chunk i).take cnt, r.1)
      | none => none
    else none
  | .fromGather k cnt =>
    let ds := Inner.chunks_vectored i k
    if cnt ≤ ds.flatten.length then
      match Inner.advance i cnt with
      | some r => some (ds.flatten.take cnt, r.1)
      | none => none
    else none

/-- Run a trace of reads against the loose variant, concatenating the bytes
read. -/
def Loose.runReads : Inner → List ROp → Option (List Nat × Inner)
  | i, [] => some ([], i)
  | i, op :: ops =>
    match Inner.readStep i op with
    | none => none
    | some (out, j) =>
      match Loose.runReads j ops with
      | none => none
      | some r => some (out ++ r.1, r.2)

/-- Perform a read step against the strict variant (the views are those of the engine
core; advancing maintains the `cap` counter). -/
def Strict.readStep (s : Strict) : ROp → Option (List Nat × Strict)
  | .fromFront cnt =>
    if cnt ≤ (Inner.chunk s.inner).length then
      match Strict.advance s cnt with
      | some t => some ((Inner.chunk s.inner).take cnt, t)
      | none => none
    else none
  | .fromGather k cnt =>
    let ds := Inner.chunks_vectored s.inner k
    if cnt ≤ ds.flatten.length then
      match Strict.advance s cnt with
      | some t => some (ds.flatten.take cnt, t)
      | none => none
    else none

/-- Run a trace of reads against the strict variant, concatenating the bytes
read. -/
def Strict.runReads : Strict → List ROp → Option (List Nat × Strict)
  | s, [] => some ([], s)
  | s, op :: ops =>
    match Strict.readStep s op with
    | none => none
    | some (out, t) =>
      match Strict.runReads t ops with
      | none => none
      | some r => some (out ++ r.1, r.2)

/-- Run a trace of plain `advance` calls against the loose variant. -/
def Loose.runAdvances : Inner → List Nat → Option Inner
  | i, [] => some i
  | i, cnt :: cs =>
    match Loose.advance i cnt with
    | some j => Loose.runAdvances j cs
    | none => none

/-- A general operation of the strict variant, for stating invariants over
every reachable state. -/
inductive SOp where
  | stage : List Nat → SOp
  | ingest : Bytes → SOp
  | flushOp : SOp
  | adv : Nat → SOp
  | drain : SOp
deriving Repr, DecidableEq

/-- Apply a strict-variant operation. -/
def Strict.applyOp (s : Strict) : SOp → Option Strict
  | .stage bs => Strict.stage_write s bs
  | .ingest b => Strict.put_bytes s b
  | .flushOp => some (Strict.flush s)
  | .adv cnt => Strict.advance s cnt
  | .drain => some (Strict.drain_chunks s)

/-- Run a trace of strict-variant operations. -/
def Strict.run : Strict → List SOp → Option Strict
  | s, [] => some s
  | s, op :: ops =>
    match Strict.applyOp s op with
    | some t => Strict.run t ops
    | none => none

theorem foldl_add_len (cs : List Bytes) (init : Nat) :
    cs.foldl (fun sum c => sum + c.data.length) init
      = init + ((cs.map Bytes.data).map List.length).sum := by
  induction cs generalizing init with
  | nil => simp
  | cons c rest ih => simp [List.foldl_cons, ih, Nat.add_assoc]

/-- The value of `remaining` is the length of the unread byte sequence. -/
theorem remaining_eq_length_readout (i : Inner) :
    i.remaining = i.readout.length := by
  simp [Inner.remaining, Inner.readout, foldl_add_len, List.length_flatten,
    Nat.add_comm]

/-- The value of `remaining` is the staging length plus the sum of the queued chunk
lengths. -/
theorem remaining_eq_sum (i : Inner) :
    i.remaining = i.staging.data.length + (i.chunks.map (fun c => c.data.length)).sum := by
  simp [Inner.remaining, foldl_add_len, Function.comp_def]

@[simp]
theorem readout_flush (i : Inner) : (Inner.flush i).readout = i.readout := by
  by_cases h : i.staging.data.isEmpty <;>
    simp_all [Inner.flush, Inner.readout, BytesMut.split, List.flatten_append,
      List.isEmpty_iff]

@[simp]
theorem staging_data_flush (i : Inner) : (Inner.flush i).staging.data = [] := by
  by_cases h : i.staging.data.isEmpty <;>
    simp_all [Inner.flush, BytesMut.split, List.isEmpty_iff]

@[simp]
theorem chunk_size_flush (i : Inner) : (Inner.flush i).chunk_size = i.chunk_size := by
  by_cases h : i.staging.data.isEmpty <;> simp_all [Inner.flush]

theorem chunks_flush (i : Inner) :
    (Inner.flush i).chunks
      = i.chunks ++ if i.staging.data.isEmpty then []
          else [⟨i.fresh, i.staging.data⟩] := by
  by_cases h : i.staging.data.isEmpty <;> simp_all [Inner.flush]

theorem flush_staging_le (i : Inner) :
    (Inner.flush i).staging.data.length ≤ (Inner.flush i).staging.cap := by
  simp [staging_data_flush]

@[simp]
theorem readout_push_chunk (i : Inner) (c : Bytes) :
    (Inner.push_chunk i c).readout = (i.chunks.map Bytes.data).flatten ++ c.data ++ i.staging.data := by
  simp [Inner.push_chunk, Inner.readout, List.flatten_append, List.append_assoc]

@[simp]
theorem readout_reserve_staging (i : Inner) :
    (Inner.reserve_staging i).1.readout = i.readout := by
  unfold Inner.reserve_staging
  by_cases h : usizeSat (i.staging.cap + i.staging.cap / 2) > i.chunk_size
  · simp only [h, if_pos]
    have := readout_flush i
    simp only [Inner.readout] at this ⊢
    simpa [BytesMut.reserve] using this
  · simp [h, Inner.readout, BytesMut.reserve]

@[simp]
theorem chunk_size_reserve_staging (i : Inner) :
    (Inner.reserve_staging i).1.chunk_size = i.chunk_size := by
  unfold Inner.reserve_staging
  by_cases h : usizeSat (i.staging.cap + i.staging.cap / 2) > i.chunk_size <;>
    simp [h]

theorem readout_with_chunk_size (L : Nat) :
    (Inner.with_chunk_size L).readout = [] := by
  simp [Inner.with_chunk_size, Inner.readout]

theorem advanceLoop_none (cs : List Bytes) (cnt : Nat)
    (h : (advanceLoop cs cnt).2 = none) :
    ((advanceLoop cs cnt).1.map Bytes.data).flatten
        = ((cs.map Bytes.data).flatten).drop cnt
      ∧ cnt < ((cs.map Bytes.data).flatten).length := by
  induction cs generalizing cnt with
  | nil => simp [advanceLoop] at h
  | cons c rest ih =>
    by_cases hc : cnt < c.data.length
    · simp only [advanceLoop, if_pos hc] at h ⊢
      constructor
      · simp [Bytes.advance, List.drop_append_eq_append_drop,
          Nat.sub_eq_zero_of_le (Nat.le_of_lt hc)]
      · simp only [List.map_cons, List.flatten_cons, List.length_append]
        omega
    · simp only [advanceLoop, if_neg hc] at h ⊢
      obtain ⟨h1, h2⟩ := ih (cnt - c.data.length) h
      constructor
      · rw [h1]
        simp only [List.map_cons, List.flatten_cons,
          List.drop_append_eq_append_drop,
          List.drop_eq_nil_of_le (Nat.le_of_not_lt hc)]
        simp
      · simp only [List.map_cons, List.flatten_cons, List.length_append]
        omega

theorem advanceLoop_some (cs : List Bytes) (cnt rem : Nat)
    (h : (advanceLoop cs cnt).2 = some rem) :
    (advanceLoop cs cnt).1 = []
      ∧ cnt = ((cs.map Bytes.data).flatten).length + rem := by
  induction cs generalizing cnt with
  | nil =>
    simp only [advanceLoop] at h ⊢
    simp at h
    simp [h]
  | cons c rest ih =>
    by_cases hc : cnt < c.data.length
    · simp [advanceLoop, if_pos hc] at h
    · simp only [advanceLoop, if_neg hc] at h ⊢
      obtain ⟨h1, h2⟩ := ih (cnt - c.data.length) h
      refine ⟨h1, ?_⟩
      simp only [List.map_cons, List.flatten_cons, List.length_append]
      omega

/-- The operation `Inner.advance` panics exactly when `cnt` exceeds `remaining`. -/
theorem advance_isSome_iff (i : Inner) (cnt : Nat) :
    (Inner.advance i cnt).isSome ↔ cnt ≤ i.remaining := by
  rw [remaining_eq_length_readout]
  unfold Inner.advance
  cases hl : advanceLoop i.chunks cnt with
  | mk chunks2 res =>
    cases res with
    | none =>
      have := advanceLoop_none i.chunks cnt (by rw [hl])
      rw [hl] at this
      simp only [Option.isSome_some, true_iff]
      have h2 := this.2
      simp only [Inner.readout, List.length_append]
      omega
    | some rem =>
      obtain ⟨-, h2⟩ := advanceLoop_some i.chunks cnt rem (by rw [hl])
      simp only [BytesMut.advance, Inner.readout, List.length_append]
      by_cases hs : rem ≤ i.staging.data.length
      · simp only [if_pos hs, Option.isSome_some, true_iff]
        omega
      · simp only [if_neg hs, Option.isSome_none, Bool.false_eq_true, false_iff]
        omega

/-- The effect of a successful `Inner.advance` on every component of the
state. -/
theorem advance_some (i : Inner) (cnt : Nat) (r : Inner × AdvanceStopped)
    (h : Inner.advance i cnt = some r) :
    r.1.readout = i.readout.drop cnt
      ∧ ((r.1.chunks.map Bytes.data).flatten
          = ((i.chunks.map Bytes.data).flatten).drop cnt)
      ∧ r.1.staging.data
          = i.staging.data.drop (cnt - ((i.chunks.map Bytes.data).flatten).length)
      ∧ r.1.chunk_size = i.chunk_size
      ∧ r.1.fresh = i.fresh
      ∧ (∀ adv, r.2 = AdvanceStopped.InStaging adv →
          adv = cnt - ((i.chunks.map Bytes.data).flatten).length
            ∧ adv ≤ i.staging.data.length ∧ r.1.chunks = [])
      ∧ (r.2 = AdvanceStopped.InChunk → r.1.staging = i.staging
          ∧ cnt < ((i.chunks.map Bytes.data).flatten).length)
      ∧ r.1.chunks = (advanceLoop i.chunks cnt).1 := by
  unfold Inner.advance at h
  cases hl : advanceLoop i.chunks cnt with
  | mk chunks2 res =>
    rw [hl] at h
    cases res with
    | none =>
      obtain ⟨h1, h2⟩ := advanceLoop_none i.chunks cnt (by rw [hl])
      rw [hl] at h1
      simp only at h1
      simp only [Option.some_inj] at h
      subst h
      refine ⟨?_, h1, ?_, rfl, rfl, ?_, ?_, rfl⟩
      · simp only [Inner.readout, h1, List.drop_append_eq_append_drop,
          Nat.sub_eq_zero_of_le (Nat.le_of_lt h2)]
        simp
      · have hz : cnt - ((i.chunks.map Bytes.data).flatten).length = 0 :=
          Nat.sub_eq_zero_of_le (Nat.le_of_lt h2)
        rw [hz, List.drop_zero]
      · intro adv hadv; cases hadv
      · intro _; exact ⟨rfl, h2⟩
    | some rem =>
      obtain ⟨h1, h2⟩ := advanceLoop_some i.chunks cnt rem (by rw [hl])
      rw [hl] at h1
      simp only at h1
      subst h1
      simp only [BytesMut.advance] at h
      by_cases hs : rem ≤ i.staging.data.length
      · simp only [if_pos hs, Option.some_inj] at h
        subst h
        have hrem : rem = cnt - ((i.chunks.map Bytes.data).flatten).length := by omega
        refine ⟨?_, ?_, by simp [hrem], rfl, rfl, ?_, ?_, rfl⟩
        · simp only [Inner.readout, List.map_nil, List.flatten_nil,
            List.nil_append, List.drop_append_eq_append_drop,
            List.drop_eq_nil_of_le (by omega :
              ((i.chunks.map Bytes.data).flatten).length ≤ cnt)]
          simp [hrem]
        · simp [List.drop_eq_nil_of_le (by omega :
            ((i.chunks.map Bytes.data).flatten).length ≤ cnt)]
        · intro adv hadv
          simp only [AdvanceStopped.InStaging.injEq] at hadv
          subst hadv
          exact ⟨hrem, hs, rfl⟩
        · intro hadv; cases hadv
      · simp [if_neg hs] at h

/-- The front slice is a prefix of the unread byte sequence. -/
theorem chunk_isPrefix_readout (i : Inner) :
    ∃ t, Inner.chunk i ++ t = i.readout := by
  cases hc : i.chunks with
  | nil => exact ⟨[], by simp [Inner.chunk, Inner.readout, hc]⟩
  | cons c rest =>
    refine ⟨(rest.map Bytes.data).flatten ++ i.staging.data, ?_⟩
    simp [Inner.chunk, Inner.readout, hc]

/-- The concatenation of the gathered descriptors is a prefix of the unread
byte sequence. -/
theorem chunks_vectored_isPrefix_readout (i : Inner) (k : Nat) :
    ∃ t, (Inner.chunks_vectored i k).flatten ++ t = i.readout := by
  unfold Inner.chunks_vectored
  by_cases h : ((i.chunks.take k).map Bytes.data).length < k
      ∧ ¬ i.staging.data.isEmpty
  · have hlt : i.chunks.length < k := by
      have := h.1
      simp only [List.length_map, List.length_take] at this
      omega
    refine ⟨[], ?_⟩
    simp [h, hlt, Inner.readout, List.flatten_append,
      List.take_of_length_le (Nat.le_of_lt hlt)]
  · refine ⟨((i.chunks.drop k).map Bytes.data).flatten ++ i.staging.data, ?_⟩
    simp only [h, if_neg, ite_false]
    rw [List.map_take, Inner.readout, ← List.append_assoc, List.map_drop,
      ← List.flatten_append, List.take_append_drop]

/-- Appending the committed bytes: the effect of a successful
`BytesMut.fill_commit`. -/
theorem fill_commit_some (m : BytesMut) (bs : List Nat) (m2 : BytesMut)
    (h : BytesMut.fill_commit m bs = some m2) :
    m2.data = m.data ++ bs ∧ m2.cap = m.cap
      ∧ m.data.length + bs.length ≤ m.cap := by
  unfold BytesMut.fill_commit at h
  by_cases hc : m.data.length + bs.length ≤ m.cap
  · simp only [if_pos hc, Option.some_inj] at h
    subst h
    exact ⟨rfl, rfl, hc⟩
  · simp [if_neg hc] at h

theorem Loose.advance_mut_some (i : Inner) (bs : List Nat) (j : Inner)
    (h : Loose.advance_mut i bs = some j) :
    j.readout = i.readout ++ bs ∧ j.chunks = i.chunks
      ∧ j.staging.data = i.staging.data ++ bs
      ∧ j.chunk_size = i.chunk_size ∧ j.fresh = i.fresh := by
  unfold Loose.advance_mut at h
  cases hm : BytesMut.fill_commit i.staging bs with
  | none => rw [hm] at h; cases h
  | some st =>
    rw [hm] at h
    simp only [Option.some_inj] at h
    subst h
    obtain ⟨h1, h2, h3⟩ := fill_commit_some _ _ _ hm
    refine ⟨?_, rfl, h1, rfl, rfl⟩
    simp [Inner.readout, h1]

theorem Loose.stage_write_some (i : Inner) (bs : List Nat) (j : Inner)
    (h : Loose.stage_write i bs = some j) :
    j.readout = i.readout ++ bs ∧ j.chunk_size = i.chunk_size := by
  unfold Loose.stage_write Loose.bytes_mut at h
  by_cases hfull : i.staging.data.length = i.staging.cap
  · simp only [hfull, if_pos, ite_true] at h
    by_cases hlen : bs.length ≤ (i.reserve_staging).1.staging.cap
        - (i.reserve_staging).1.staging.data.length
    · simp only [if_pos hlen] at h
      obtain ⟨h1, -, -, h4, -⟩ := Loose.advance_mut_some _ _ _ h
      rw [h1, h4]
      simp
    · simp [if_neg hlen] at h
  · simp only [hfull, if_neg, ite_false] at h
    by_cases hlen : bs.length ≤ i.staging.cap - i.staging.data.length
    · simp only [if_pos hlen] at h
      obtain ⟨h1, -, -, h4, -⟩ := Loose.advance_mut_some _ _ _ h
      exact ⟨h1, h4⟩
    · simp [if_neg hlen] at h

theorem Loose.put_bytes_readout (i : Inner) (b : Bytes) :
    (Loose.put_bytes i b).readout = i.readout ++ b.data := by
  unfold Loose.put_bytes
  by_cases hb : b.data.isEmpty
  · simp_all [List.isEmpty_iff]
  · simp only [Bool.not_eq_true] at hb
    simp only [hb, Bool.false_eq_true, ite_false]
    rw [readout_push_chunk]
    have := readout_flush i
    simp only [Inner.readout] at this
    rw [staging_data_flush] at this
    simp only [List.append_nil] at this
    rw [this]
    simp [staging_data_flush, Inner.readout]

theorem Loose.put_bytes_chunk_size (i : Inner) (b : Bytes) :
    (Loose.put_bytes i b).chunk_size = i.chunk_size := by
  unfold Loose.put_bytes
  by_cases hb : b.data.isEmpty <;> simp [hb, Inner.push_chunk]

theorem Loose.applyWrites_some (ws : List WOp) (i j : Inner)
    (h : Loose.applyWrites i ws = some j) :
    j.readout = i.readout ++ writtenBytes ws
      ∧ j.chunk_size = i.chunk_size := by
  induction ws generalizing i with
  | nil =>
    simp only [Loose.applyWrites, Option.some_inj] at h
    subst h
    simp [writtenBytes]
  | cons op ops ih =>
    simp only [Loose.applyWrites] at h
    cases hop : Loose.applyWrite i op with
    | none => rw [hop] at h; cases h
    | some i1 =>
      rw [hop] at h
      obtain ⟨h1, h2⟩ := ih i1 h
      have : i1.readout = i.readout ++ op.bytes ∧ i1.chunk_size = i.chunk_size := by
        cases op with
        | stage bs => exact ⟨(Loose.stage_write_some i bs i1 hop).1,
            (Loose.stage_write_some i bs i1 hop).2⟩
        | ingest b =>
          simp only [Loose.applyWrite, Option.some_inj] at hop
          subst hop
          exact ⟨Loose.put_bytes_readout i b, Loose.put_bytes_chunk_size i b⟩
      rw [h1, this.1, h2, this.2]
      simp [writtenBytes, WOp.bytes]

theorem take_of_front_part (p t l : List Nat) (cnt : Nat) (hpt : p ++ t = l)
    (hcnt : cnt ≤ p.length) : l.take cnt = p.take cnt := by
  subst hpt
  rw [List.take_append_eq_append_take, Nat.sub_eq_zero_of_le hcnt]
  simp

/-- A read step returns exactly the next `out.length` unread bytes and
consumes them. -/
theorem readStep_some (i : Inner) (op : ROp) (out : List Nat) (j : Inner)
    (h : Inner.readStep i op = some (out, j)) :
    out = i.readout.take out.length
      ∧ j.readout = i.readout.drop out.length
      ∧ j.chunk_size = i.chunk_size := by
  cases op with
  | fromFront cnt =>
    unfold Inner.readStep at h
    by_cases hc : cnt ≤ (Inner.chunk i).length
    · simp only [if_pos hc] at h
      cases hadv : Inner.advance i cnt with
      | none => rw [hadv] at h; cases h
      | some r =>
        rw [hadv] at h
        simp only [Option.some_inj, Prod.mk.injEq] at h
        obtain ⟨hout, hj⟩ := h
        obtain ⟨hr1, -, -, hcs, -, -, -, -⟩ := advance_some i cnt r hadv
        obtain ⟨t, hpt⟩ := chunk_isPrefix_readout i
        have hlen : out.length = cnt := by
          rw [← hout, List.length_take]
          omega
        subst hj
        refine ⟨?_, by rw [hr1, hlen], by rw [hcs]⟩
        rw [hlen, take_of_front_part _ t _ cnt hpt hc, hout]
    · simp [if_neg hc] at h
  | fromGather k cnt =>
    unfold Inner.readStep at h
    by_cases hc : cnt ≤ (Inner.chunks_vectored i k).flatten.length
    · simp only [if_pos hc] at h
      cases hadv : Inner.advance i cnt with
      | none => rw [hadv] at h; cases h
      | some r =>
        rw [hadv] at h
        simp only [Option.some_inj, Prod.mk.injEq] at h
        obtain ⟨hout, hj⟩ := h
        obtain ⟨hr1, -, -, hcs, -, -, -, -⟩ := advance_some i cnt r hadv
        obtain ⟨t, hpt⟩ := chunks_vectored_isPrefix_readout i k
        have hlen : out.length = cnt := by
          rw [← hout, List.length_take]
          omega
        subst hj
        refine ⟨?_, by rw [hr1, hlen], by rw [hcs]⟩
        rw [hlen, take_of_front_part _ t _ cnt hpt hc, hout]
    · simp only [if_neg hc] at h
      cases h

/-- A trace of reads returns exactly the unread prefix of the length it
read. -/
theorem Loose.runReads_some (ops : List ROp) (i : Inner) (out : List Nat)
    (j : Inner) (h : Loose.runReads i ops = some (out, j)) :
    out = i.readout.take out.length
      ∧ j.readout = i.readout.drop out.length := by
  induction ops generalizing i out with
  | nil =>
    simp only [Loose.runReads, Option.some_inj, Prod.mk.injEq] at h
    obtain ⟨h1, h2⟩ := h
    subst h1; subst h2
    simp
  | cons op ops ih =>
    simp only [Loose.runReads] at h
    cases hstep : Inner.readStep i op with
    | none =>
      simp only [hstep] at h
      cases h
    | some r =>
      obtain ⟨o1, i1⟩ := r
      simp only [hstep] at h
      cases hrest : Loose.runReads i1 ops with
      | none => rw [hrest] at h; cases h
      | some r2 =>
        rw [hrest] at h
        simp only [Option.some_inj, Prod.mk.injEq] at h
        obtain ⟨hout, hj⟩ := h
        obtain ⟨s1, s2, -⟩ := readStep_some i op o1 i1 hstep
        obtain ⟨t1, t2⟩ := ih i1 r2.1 (by rw [hrest, ← hj])
        subst hout
        constructor
        · rw [List.length_append, List.take_add, ← s1, ← s2, ← t1]
        · rw [t2, s2, List.drop_drop, List.length_append]

theorem Loose.runAdvances_some (cs : List Nat) (i j : Inner)
    (h : Loose.runAdvances i cs = some j) :
    j.readout = i.readout.drop cs.sum ∧ cs.sum ≤ i.remaining
      ∧ j.remaining = i.remaining - cs.sum := by
  induction cs generalizing i with
  | nil =>
    simp only [Loose.runAdvances, Option.some_inj] at h
    subst h
    simp
  | cons c rest ih =>
    simp only [Loose.runAdvances] at h
    cases hadv : Loose.advance i c with
    | none => rw [hadv] at h; cases h
    | some i1 =>
      rw [hadv] at h
      obtain ⟨h1, h2, h3⟩ := ih i1 h
      unfold Loose.advance at hadv
      cases hia : Inner.advance i c with
      | none => rw [hia] at hadv; cases hadv
      | some r =>
        rw [hia] at hadv
        simp only [Option.some_inj] at hadv
        subst hadv
        have hle : c ≤ i.remaining := by
          have := (advance_isSome_iff i c).mp (by rw [hia]; rfl)
          exact this
        obtain ⟨hr1, -, -, -, -, -, -, -⟩ := advance_some i c r hia
        have hrem1 : r.1.remaining = i.remaining - c := by
          rw [remaining_eq_length_readout, remaining_eq_length_readout, hr1,
            List.length_drop]
        rw [h1, hr1, List.drop_drop]
        refine ⟨rfl, ?_, ?_⟩
        · rw [hrem1] at h2
          simp only [List.sum_cons]
          omega
        · rw [h3, hrem1]
          simp only [List.sum_cons]
          omega

theorem splitAllFuel_ne_nil (fuel L : Nat) (b : Bytes) :
    splitAllFuel fuel L b ≠ [] := by
  cases fuel with
  | zero => simp [splitAllFuel]
  | succ g =>
    by_cases h : 0 < L ∧ L < b.data.length <;> simp [splitAllFuel, h]

theorem splitAllFuel_spec (L : Nat) (hL : 0 < L) (fuel : Nat) :
    ∀ b : Bytes, b.data.length ≤ fuel →
      ((splitAllFuel fuel L b).map Bytes.data).flatten = b.data
        ∧ (∀ c ∈ splitAllFuel fuel L b, c.data.length ≤ L)
        ∧ (∀ c ∈ (splitAllFuel fuel L b).dropLast, c.data.length = L)
        ∧ (b.data ≠ [] →
            (splitAllFuel fuel L b).length = (b.data.length + L - 1) / L) := by
  induction fuel with
  | zero =>
    intro b hb
    have hb0 : b.data = [] := List.length_eq_zero.mp (Nat.le_zero.mp hb)
    simp [splitAllFuel, hb0]
  | succ n ih =>
    intro b hb
    by_cases h : 0 < L ∧ L < b.data.length
    · simp only [splitAllFuel, if_pos h]
      have hrec := ih ⟨b.sid, b.data.drop L⟩ (by simp only [List.length_drop]; omega)
      obtain ⟨r1, r2, r3, r4⟩ := hrec
      refine ⟨?_, ?_, ?_, ?_⟩
      · simp only [List.map_cons, List.flatten_cons, r1]
        exact List.take_append_drop L b.data
      · intro c hc
        cases hc with
        | head => simp only [List.length_take]; omega
        | tail _ hc2 => exact r2 c hc2
      · rw [List.dropLast_cons_of_ne_nil (splitAllFuel_ne_nil n L _)]
        intro c hc
        cases hc with
        | head => simp only [List.length_take]; omega
        | tail _ hc2 => exact r3 c hc2
      · intro _
        have hne : (⟨b.sid, b.data.drop L⟩ : Bytes).data ≠ [] := by
          intro hnil
          have := congrArg List.length hnil
          simp only [List.length_drop, List.length_nil] at this
          omega
        rw [List.length_cons, r4 hne]
        simp only [List.length_drop]
        have e1 : b.data.length - L + L - 1 = b.data.length - 1 := by omega
        have e2 : b.data.length + L - 1 = (b.data.length - 1) + L := by omega
        rw [e1, e2, Nat.add_div_right _ hL]
    · simp only [splitAllFuel, if_neg h]
      have hlen : b.data.length ≤ L := by omega
      refine ⟨by simp, ?_, by simp, ?_⟩
      · intro c hc
        simp only [List.mem_singleton] at hc
        subst hc
        exact hlen
      · intro hne
        have h1 : 1 ≤ b.data.length := by
          cases hd : b.data with
          | nil => exact absurd hd hne
          | cons x xs => simp [hd]
        have e2 : b.data.length + L - 1 = (b.data.length - 1) + L := by omega
        rw [List.length_singleton, e2, Nat.add_div_right _ hL,
          Nat.div_eq_of_lt (show b.data.length - 1 < L by omega)]

/-- The pieces of the strict splitting loop concatenate back to the source,
are all bounded by the limit, all but the last are exactly the limit, and
there are `⌈n / L⌉` of them. -/
theorem splitAll_spec (L : Nat) (hL : 0 < L) (b : Bytes) :
    ((splitAll L b).map Bytes.data).flatten = b.data
      ∧ (∀ c ∈ splitAll L b, c.data.length ≤ L)
      ∧ (∀ c ∈ (splitAll L b).dropLast, c.data.length = L)
      ∧ (b.data ≠ [] → (splitAll L b).length = (b.data.length + L - 1) / L) :=
  splitAllFuel_spec L hL b.data.length b le_rfl

theorem foldl_push_chunk (cs : List Bytes) (i : Inner) :
    cs.foldl Inner.push_chunk i = { i with chunks := i.chunks ++ cs } := by
  induction cs generalizing i with
  | nil => simp
  | cons c rest ih =>
    rw [List.foldl_cons, ih]
    simp [Inner.push_chunk]

/-- Unfolding of a successful strict `put_bytes`. -/
theorem Strict.put_bytes_eq (s : Strict) (src : Bytes)
    (h0 : s.inner.chunk_size ≠ 0) (hne : ¬ src.data.isEmpty) :
    Strict.put_bytes s src
      = some { s with
                inner := { s.inner.flush with
                  chunks := s.inner.flush.chunks
                    ++ splitAll s.inner.chunk_size src } } := by
  unfold Strict.put_bytes
  rw [if_neg hne, if_neg h0, foldl_push_chunk]

theorem Strict.put_bytes_some (s : Strict) (src : Bytes) (t : Strict)
    (h : Strict.put_bytes s src = some t) :
    t.inner.readout = s.inner.readout ++ src.data
      ∧ t.inner.chunk_size = s.inner.chunk_size
      ∧ t.cap = s.cap := by
  by_cases hne : src.data.isEmpty
  · unfold Strict.put_bytes at h
    simp only [hne, ite_true, Option.some_inj] at h
    subst h
    simp [List.isEmpty_iff] at hne
    simp [hne]
  · by_cases h0 : s.inner.chunk_size = 0
    · unfold Strict.put_bytes at h
      simp [hne, h0] at h
    · rw [Strict.put_bytes_eq s src h0 hne] at h
      simp only [Option.some_inj] at h
      subst h
      have hL : 0 < s.inner.chunk_size := Nat.pos_of_ne_zero h0
      obtain ⟨hf, -, -, -⟩ := splitAll_spec s.inner.chunk_size hL src
      refine ⟨?_, by simp, rfl⟩
      simp only [Inner.readout, List.map_append, List.flatten_append,
        staging_data_flush, List.append_nil, hf]
      have := readout_flush s.inner
      simp only [Inner.readout, staging_data_flush, List.append_nil] at this
      rw [this]

/-- The reservation step: the returned value is the staging capacity, the
staging length stays within capacity, and the state either went through a
flush (staging emptied) or is unchanged apart from the staging capacity. -/
theorem reserve_staging_spec (i : Inner) :
    (Inner.reserve_staging i).2 = (Inner.reserve_staging i).1.staging.cap
      ∧ (Inner.reserve_staging i).1.staging.data.length
          ≤ (Inner.reserve_staging i).1.staging.cap
      ∧ ((Inner.reserve_staging i).1.staging.data = []
            ∧ (Inner.reserve_staging i).1.chunks = (Inner.flush i).chunks
          ∨ (Inner.reserve_staging i).1.staging.data = i.staging.data
            ∧ (Inner.reserve_staging i).1.chunks = i.chunks) := by
  by_cases h : usizeSat (i.staging.cap + i.staging.cap / 2) > i.chunk_size
  · refine ⟨?_, ?_, Or.inl ⟨?_, ?_⟩⟩ <;>
      simp [Inner.reserve_staging, h, BytesMut.reserve, staging_data_flush]
  · refine ⟨?_, ?_, Or.inr ⟨?_, ?_⟩⟩ <;>
      simp [Inner.reserve_staging, h, BytesMut.reserve]

theorem flush_fresh_chunk_len (i : Inner) (c : Bytes)
    (hc : c ∈ (Inner.flush i).chunks) :
    c ∈ i.chunks ∨ c.data.length = i.staging.data.length := by
  rw [chunks_flush] at hc
  by_cases hs : i.staging.data.isEmpty
  · simp [hs] at hc
    exact Or.inl hc
  · simp [hs] at hc
    cases hc with
    | inl h1 => exact Or.inl h1
    | inr h2 => subst h2; exact Or.inr rfl

/-- Well-formedness of `strictly.rs` states: the staging length never exceeds the
tracked capacity ceiling, the ceiling never exceeds the configured limit, and
every queued chunk is bounded by the limit. -/
def Strict.Wf (s : Strict) : Prop :=
  s.inner.staging.data.length ≤ s.cap
    ∧ s.cap ≤ s.inner.chunk_size
    ∧ ∀ c ∈ s.inner.chunks, c.data.length ≤ s.inner.chunk_size

theorem Strict.wf_init (L : Nat) : (Strict.with_chunk_size_limit L).Wf := by
  refine ⟨?_, ?_, ?_⟩ <;>
    simp [Strict.with_chunk_size_limit, Inner.with_chunk_size, Strict.Wf]

theorem Strict.wf_flush (s : Strict) (hwf : s.Wf) : (Strict.flush s).Wf := by
  obtain ⟨h1, h2, h3⟩ := hwf
  refine ⟨?_, ?_, ?_⟩
  · simp [Strict.flush, staging_data_flush]
  · simpa [Strict.flush] using h2
  · intro c hc
    simp only [Strict.flush, chunk_size_flush]
    cases flush_fresh_chunk_len s.inner c hc with
    | inl h => exact h3 c h
    | inr h => rw [h]; omega

theorem Strict.bytes_mut_pos (s : Strict)
    (hfull : s.inner.staging.data.length = s.cap) :
    Strict.bytes_mut s
      = (⟨(s.inner.reserve_staging).1,
            min (s.inner.reserve_staging).2 s.chunk_size_limit⟩,
         min ((s.inner.reserve_staging).1.staging.cap
              - (s.inner.reserve_staging).1.staging.data.length)
            (min (s.inner.reserve_staging).2 s.chunk_size_limit)) := by
  unfold Strict.bytes_mut
  rw [if_pos hfull]

theorem Strict.bytes_mut_neg (s : Strict)
    (hfull : s.inner.staging.data.length ≠ s.cap) :
    Strict.bytes_mut s
      = (s, min (s.inner.staging.cap - s.inner.staging.data.length) s.cap) := by
  unfold Strict.bytes_mut
  rw [if_neg hfull]

theorem Strict.bytes_mut_spec (s : Strict) (hwf : s.Wf) :
    (Strict.bytes_mut s).1.Wf
      ∧ (Strict.bytes_mut s).1.inner.readout = s.inner.readout
      ∧ (Strict.bytes_mut s).1.inner.chunk_size = s.inner.chunk_size
      ∧ (Strict.bytes_mut s).2 ≤ (Strict.bytes_mut s).1.cap := by
  obtain ⟨h1, h2, h3⟩ := hwf
  by_cases hfull : s.inner.staging.data.length = s.cap
  · rw [Strict.bytes_mut_pos s hfull]
    obtain ⟨r1, r2, r3⟩ := reserve_staging_spec s.inner
    refine ⟨⟨?_, ?_, ?_⟩, ?_, ?_, ?_⟩
    · cases r3 with
      | inl hfl => simp [hfl.1]
      | inr hsame =>
        have hlen : (s.inner.reserve_staging).1.staging.data.length
            = s.inner.staging.data.length := by rw [hsame.1]
        simp only [Strict.chunk_size_limit]
        omega
    · simp only [Strict.chunk_size_limit, chunk_size_reserve_staging]
      exact Nat.min_le_right _ _
    · intro c hc
      simp only [chunk_size_reserve_staging]
      simp only at hc
      cases r3 with
      | inl hfl =>
        rw [hfl.2] at hc
        cases flush_fresh_chunk_len s.inner c hc with
        | inl h => exact h3 c h
        | inr h => rw [h]; omega
      | inr hsame =>
        rw [hsame.2] at hc
        exact h3 c hc
    · exact readout_reserve_staging s.inner
    · exact chunk_size_reserve_staging s.inner
    · exact Nat.min_le_right _ _
  · rw [Strict.bytes_mut_neg s hfull]
    exact ⟨⟨h1, h2, h3⟩, rfl, rfl, Nat.min_le_right _ _⟩

theorem Strict.advance_mut_ok (s : Strict) (bs : List Nat) (t : Strict)
    (h : Strict.advance_mut s bs = some t) :
    t.inner.readout = s.inner.readout ++ bs
      ∧ t.inner.chunks = s.inner.chunks
      ∧ t.inner.staging.data = s.inner.staging.data ++ bs
      ∧ t.inner.chunk_size = s.inner.chunk_size
      ∧ t.cap = s.cap
      ∧ s.inner.staging.data.length + bs.length ≤ s.cap := by
  unfold Strict.advance_mut at h
  by_cases hc : s.inner.staging.data.length + bs.length ≤ s.cap
  · simp only [if_pos hc] at h
    cases hm : BytesMut.fill_commit s.inner.staging bs with
    | none => rw [hm] at h; cases h
    | some st =>
      rw [hm] at h
      simp only [Option.some_inj] at h
      subst h
      obtain ⟨m1, m2, m3⟩ := fill_commit_some _ _ _ hm
      refine ⟨?_, rfl, m1, rfl, rfl, hc⟩
      simp [Inner.readout, m1]
  · simp [if_neg hc] at h

theorem Strict.advance_mut_none (s : Strict) (bs : List Nat)
    (h : s.cap < s.inner.staging.data.length + bs.length) :
    Strict.advance_mut s bs = none := by
  unfold Strict.advance_mut
  rw [if_neg (by omega)]

theorem Strict.wf_advance_mut (s : Strict) (bs : List Nat) (t : Strict)
    (h : Strict.advance_mut s bs = some t) (hwf : s.Wf) : t.Wf := by
  obtain ⟨-, h2, h3⟩ := hwf
  obtain ⟨-, a2, a3, a4, a5, a6⟩ := Strict.advance_mut_ok s bs t h
  refine ⟨?_, ?_, ?_⟩
  · rw [a3, a5, List.length_append]
    exact a6
  · rw [a4, a5]; exact h2
  · intro c hc
    rw [a2] at hc
    rw [a4]
    exact h3 c hc

theorem Strict.stage_write_ok (s : Strict) (bs : List Nat) (t : Strict)
    (h : Strict.stage_write s bs = some t) (hwf : s.Wf) :
    t.Wf ∧ t.inner.readout = s.inner.readout ++ bs
      ∧ t.inner.chunk_size = s.inner.chunk_size := by
  unfold Strict.stage_write at h
  by_cases hlen : bs.length ≤ (Strict.bytes_mut s).2
  · simp only [if_pos hlen] at h
    obtain ⟨w1, w2, w3, -⟩ := Strict.bytes_mut_spec s hwf
    obtain ⟨a1, -, -, a4, -, -⟩ := Strict.advance_mut_ok _ bs t h
    refine ⟨Strict.wf_advance_mut _ bs t h w1, ?_, ?_⟩
    · rw [a1, w2]
    · rw [a4, w3]
  · simp [if_neg hlen] at h

theorem advanceLoop_chunks_le (cs : List Bytes) (cnt : Nat) :
    ∀ c2 ∈ (advanceLoop cs cnt).1, ∃ c ∈ cs, c2.data.length ≤ c.data.length := by
  induction cs generalizing cnt with
  | nil => simp [advanceLoop]
  | cons c rest ih =>
    by_cases hc : cnt < c.data.length
    · simp only [advanceLoop, if_pos hc]
      intro c2 hc2
      cases hc2 with
      | head =>
        exact ⟨c, List.mem_cons_self c rest, by
          simp [Bytes.advance]⟩
      | tail _ h2 => exact ⟨c2, List.mem_cons_of_mem c h2, le_rfl⟩
    · simp only [advanceLoop, if_neg hc]
      intro c2 hc2
      obtain ⟨c3, hc3, hle⟩ := ih (cnt - c.data.length) c2 hc2
      exact ⟨c3, List.mem_cons_of_mem c hc3, hle⟩

theorem Strict.advance_wf (s : Strict) (cnt : Nat) (t : Strict)
    (h : Strict.advance s cnt = some t) (hwf : s.Wf) :
    t.Wf ∧ t.inner.readout = s.inner.readout.drop cnt
      ∧ t.inner.chunk_size = s.inner.chunk_size := by
  obtain ⟨h1, h2, h3⟩ := hwf
  unfold Strict.advance at h
  cases hia : Inner.advance s.inner cnt with
  | none => rw [hia] at h; cases h
  | some r =>
    rw [hia] at h
    obtain ⟨a1, a2, a3, a4, -, a6, a7, a8⟩ := CB.advance_some s.inner cnt r hia
    obtain ⟨i2, stop⟩ := r
    cases stop with
    | InChunk =>
      simp only [Option.some_inj] at h
      subst h
      simp only at a1 a2 a3 a4 a8
      obtain ⟨a71, -⟩ := a7 rfl
      simp only at a71
      refine ⟨⟨?_, ?_, ?_⟩, a1, a4⟩
      · show i2.staging.data.length ≤ s.cap
        rw [a71]; exact h1
      · show s.cap ≤ i2.chunk_size
        rw [a4]; exact h2
      · intro c hc
        rw [a4]
        simp only at hc
        rw [a8] at hc
        obtain ⟨c3, hc3, hle⟩ := advanceLoop_chunks_le s.inner.chunks cnt c hc
        exact le_trans hle (h3 c3 hc3)
    | InStaging adv =>
      simp only [Option.some_inj] at h
      subst h
      simp only at a1 a2 a3 a4
      obtain ⟨b1, b2, b3⟩ := a6 adv rfl
      simp only at b3
      refine ⟨⟨?_, ?_, ?_⟩, a1, a4⟩
      · show i2.staging.data.length ≤ s.cap - adv
        rw [a3, List.length_drop, b1]
        omega
      · show s.cap - adv ≤ i2.chunk_size
        rw [a4]
        omega
      · intro c hc
        simp only at hc
        rw [b3] at hc
        cases hc

theorem Strict.wf_put_bytes (s : Strict) (src : Bytes) (t : Strict)
    (h : Strict.put_bytes s src = some t) (hwf : s.Wf) : t.Wf := by
  obtain ⟨h1, h2, h3⟩ := hwf
  by_cases hne : src.data.isEmpty
  · unfold Strict.put_bytes at h
    simp only [hne, ite_true, Option.some_inj] at h
    subst h
    exact ⟨h1, h2, h3⟩
  · by_cases h0 : s.inner.chunk_size = 0
    · unfold Strict.put_bytes at h
      simp [hne, h0] at h
    · rw [Strict.put_bytes_eq s src h0 hne] at h
      simp only [Option.some_inj] at h
      subst h
      have hL : 0 < s.inner.chunk_size := Nat.pos_of_ne_zero h0
      obtain ⟨-, hb, -, -⟩ := splitAll_spec s.inner.chunk_size hL src
      refine ⟨?_, ?_, ?_⟩
      · simp [staging_data_flush]
      · simpa using h2
      · intro c hc
        simp only [chunk_size_flush, List.mem_append] at hc ⊢
        cases hc with
        | inl hcf =>
          cases flush_fresh_chunk_len s.inner c hcf with
          | inl hin => exact h3 c hin
          | inr heq => rw [heq]; omega
        | inr hsp => exact hb c hsp

theorem Strict.applyOp_some (s : Strict) (op : SOp) (t : Strict)
    (h : Strict.applyOp s op = some t) (hwf : s.Wf) :
    t.Wf ∧ t.inner.chunk_size = s.inner.chunk_size := by
  cases op with
  | stage bs =>
    obtain ⟨w, -, hcs⟩ := Strict.stage_write_ok s bs t h hwf
    exact ⟨w, hcs⟩
  | ingest b =>
    obtain ⟨-, hcs, -⟩ := Strict.put_bytes_some s b t h
    exact ⟨Strict.wf_put_bytes s b t h hwf, hcs⟩
  | flushOp =>
    simp only [Strict.applyOp, Option.some_inj] at h
    subst h
    exact ⟨Strict.wf_flush s hwf, by simp [Strict.flush]⟩
  | adv cnt =>
    obtain ⟨w, -, hcs⟩ := Strict.advance_wf s cnt t h hwf
    exact ⟨w, hcs⟩
  | drain =>
    simp only [Strict.applyOp, Option.some_inj] at h
    subst h
    obtain ⟨h1, h2, -⟩ := hwf
    exact ⟨⟨h1, h2, by simp [Strict.drain_chunks]⟩, rfl⟩

theorem Strict.run_wf (ops : List SOp) (s t : Strict)
    (h : Strict.run s ops = some t) (hwf : s.Wf) :
    t.Wf ∧ t.inner.chunk_size = s.inner.chunk_size := by
  induction ops generalizing s with
  | nil =>
    simp only [Strict.run, Option.some_inj] at h
    subst h
    exact ⟨hwf, rfl⟩
  | cons op ops ih =>
    simp only [Strict.run] at h
    cases hop : Strict.applyOp s op with
    | none => rw [hop] at h; cases h
    | some s1 =>
      rw [hop] at h
      obtain ⟨w1, c1⟩ := Strict.applyOp_some s op s1 hop hwf
      obtain ⟨w2, c2⟩ := ih s1 h w1
      exact ⟨w2, by rw [c2, c1]⟩

theorem Strict.advance_readout (s : Strict) (cnt : Nat) (t : Strict)
    (h : Strict.advance s cnt = some t) :
    t.inner.readout = s.inner.readout.drop cnt
      ∧ t.inner.chunk_size = s.inner.chunk_size := by
  unfold Strict.advance at h
  cases hia : Inner.advance s.inner cnt with
  | none => rw [hia] at h; cases h
  | some r =>
    rw [hia] at h
    obtain ⟨a1, -, -, a4, -, -, -, -⟩ := CB.advance_some s.inner cnt r hia
    obtain ⟨i2, stop⟩ := r
    cases stop with
    | InChunk =>
      simp only [Option.some_inj] at h
      subst h
      exact ⟨a1, a4⟩
    | InStaging adv =>
      simp only [Option.some_inj] at h
      subst h
      exact ⟨a1, a4⟩

theorem Strict.readStep_spec (s : Strict) (op : ROp) (out : List Nat)
    (t : Strict) (h : Strict.readStep s op = some (out, t)) :
    out = s.inner.readout.take out.length
      ∧ t.inner.readout = s.inner.readout.drop out.length := by
  cases op with
  | fromFront cnt =>
    unfold Strict.readStep at h
    by_cases hc : cnt ≤ (Inner.chunk s.inner).length
    · simp only [if_pos hc] at h
      cases hadv : Strict.advance s cnt with
      | none => rw [hadv] at h; cases h
      | some t2 =>
        rw [hadv] at h
        simp only [Option.some_inj, Prod.mk.injEq] at h
        obtain ⟨hout, ht⟩ := h
        obtain ⟨hr1, -⟩ := Strict.advance_readout s cnt t2 hadv
        obtain ⟨u, hpt⟩ := chunk_isPrefix_readout s.inner
        have hlen : out.length = cnt := by
          rw [← hout, List.length_take]
          omega
        subst ht
        refine ⟨?_, by rw [hr1, hlen]⟩
        rw [hlen, take_of_front_part _ u _ cnt hpt hc, hout]
    · simp only [if_neg hc] at h
      cases h
  | fromGather k cnt =>
    unfold Strict.readStep at h
    by_cases hc : cnt ≤ (Inner.chunks_vectored s.inner k).flatten.length
    · simp only [if_pos hc] at h
      cases hadv : Strict.advance s cnt with
      | none => rw [hadv] at h; cases h
      | some t2 =>
        rw [hadv] at h
        simp only [Option.some_inj, Prod.mk.injEq] at h
        obtain ⟨hout, ht⟩ := h
        obtain ⟨hr1, -⟩ := Strict.advance_readout s cnt t2 hadv
        obtain ⟨u, hpt⟩ := chunks_vectored_isPrefix_readout s.inner k
        have hlen : out.length = cnt := by
          rw [← hout, List.length_take]
          omega
        subst ht
        refine ⟨?_, by rw [hr1, hlen]⟩
        rw [hlen, take_of_front_part _ u _ cnt hpt hc, hout]
    · simp only [if_neg hc] at h
      cases h

theorem Strict.runReads_spec (ops : List ROp) (s : Strict) (out : List Nat)
    (t : Strict) (h : Strict.runReads s ops = some (out, t)) :
    out = s.inner.readout.take out.length
      ∧ t.inner.readout = s.inner.readout.drop out.length := by
  induction ops generalizing s out with
  | nil =>
    simp only [Strict.runReads, Option.some_inj, Prod.mk.injEq] at h
    obtain ⟨h1, h2⟩ := h
    subst h1; subst h2
    simp
  | cons op ops ih =>
    simp only [Strict.runReads] at h
    cases hstep : Strict.readStep s op with
    | none =>
      simp only [hstep] at h
      cases h
    | some r =>
      obtain ⟨o1, s1⟩ := r
      simp only [hstep] at h
      cases hrest : Strict.runReads s1 ops with
      | none => rw [hrest] at h; cases h
      | some r2 =>
        rw [hrest] at h
        simp only [Option.some_inj, Prod.mk.injEq] at h
        obtain ⟨hout, ht⟩ := h
        obtain ⟨s1a, s2a⟩ := Strict.readStep_spec s op o1 s1 hstep
        obtain ⟨t1, t2⟩ := ih s1 r2.1 (by rw [hrest, ← ht])
        subst hout
        constructor
        · rw [List.length_append, List.take_add, ← s1a, ← s2a, ← t1]
        · rw [t2, s2a, List.drop_drop, List.length_append]

theorem Strict.applyWrites_readout (ws : List WOp) (s t : Strict)
    (h : Strict.applyWrites s ws = some t) (hwf : s.Wf) :
    t.inner.readout = s.inner.readout ++ writtenBytes ws ∧ t.Wf := by
  induction ws generalizing s with
  | nil =>
    simp only [Strict.applyWrites, Option.some_inj] at h
    subst h
    exact ⟨by simp [writtenBytes], hwf⟩
  | cons op ops ih =>
    simp only [Strict.applyWrites] at h
    cases hop : Strict.applyWrite s op with
    | none => rw [hop] at h; cases h
    | some s1 =>
      rw [hop] at h
      have hstep : s1.inner.readout = s.inner.readout ++ op.bytes ∧ s1.Wf := by
        cases op with
        | stage bs =>
          obtain ⟨w, hr, -⟩ := Strict.stage_write_ok s bs s1 hop hwf
          exact ⟨hr, w⟩
        | ingest b =>
          obtain ⟨hr, -, -⟩ := Strict.put_bytes_some s b s1 hop
          exact ⟨hr, Strict.wf_put_bytes s b s1 hop hwf⟩
      obtain ⟨h1, h2⟩ := ih s1 h hstep.2
      rw [h1, hstep.1]
      refine ⟨?_, h2⟩
      simp [writtenBytes, WOp.bytes, List.append_assoc]

theorem copyLoop_spec (cs : List Bytes) (tc : Nat) :
    (copyLoop cs tc).1 = ((cs.map Bytes.data).flatten).take tc
      ∧ ((copyLoop cs tc).2.1.map Bytes.data).flatten
          = ((cs.map Bytes.data).flatten).drop tc
      ∧ (copyLoop cs tc).2.2 = tc - ((cs.map Bytes.data).flatten).length := by
  induction cs generalizing tc with
  | nil => simp [copyLoop]
  | cons c rest ih =>
    by_cases hc : c.data.length > tc
    · simp only [copyLoop, if_pos hc]
      refine ⟨?_, ?_, ?_⟩
      · simp only [List.map_cons, List.flatten_cons,
          List.take_append_eq_append_take,
          Nat.sub_eq_zero_of_le (Nat.le_of_lt hc)]
        simp
      · simp only [List.map_cons, List.flatten_cons, Bytes.advance,
          List.drop_append_eq_append_drop,
          Nat.sub_eq_zero_of_le (Nat.le_of_lt hc)]
        simp
      · simp only [List.map_cons, List.flatten_cons, List.length_append]
        omega
    · simp only [copyLoop, if_neg hc]
      obtain ⟨i1, i2, i3⟩ := ih (tc - c.data.length)
      refine ⟨?_, ?_, ?_⟩
      · simp only [List.map_cons, List.flatten_cons,
          List.take_append_eq_append_take,
          List.take_of_length_le (Nat.le_of_not_lt hc), i1]
      · simp only [List.map_cons, List.flatten_cons,
          List.drop_append_eq_append_drop,
          List.drop_eq_nil_of_le (Nat.le_of_not_lt hc), i2]
        simp
      · simp only [List.map_cons, List.flatten_cons, List.length_append, i3]
        omega

/-- A successful `copy_to_bytes` removes and returns the first
`min len remaining` unread bytes. -/
theorem copy_to_bytes_some (i : Inner) (len : Nat)
    (h : i.chunks ≠ [] ∨ len ≤ i.remaining) :
    ∃ r, Inner.copy_to_bytes i len = some r
      ∧ r.2.data = i.readout.take (min len i.remaining)
      ∧ r.1.readout = i.readout.drop (min len i.remaining)
      ∧ r.1.remaining = i.remaining - min len i.remaining := by
  by_cases hce : i.chunks.isEmpty
  · have hc : i.chunks = [] := List.isEmpty_iff.mp hce
    have hlen : len ≤ i.remaining := by
      cases h with
      | inl h1 => exact absurd hc h1
      | inr h2 => exact h2
    have hrem : i.remaining = i.staging.data.length := by
      rw [remaining_eq_sum, hc]
      simp
    have hmin : min len i.remaining = len := Nat.min_eq_left hlen
    rw [hrem] at hlen
    refine ⟨({ i with
                 staging := ⟨i.staging.data.drop len, i.staging.cap - len⟩
                 fresh := i.fresh + 1 },
             ⟨i.fresh, i.staging.data.take len⟩), ?_, ?_, ?_, ?_⟩
    · unfold Inner.copy_to_bytes
      rw [if_pos hce, if_pos hlen]
    · simp only [hmin, Inner.readout, hc]
      simp
    · simp only [hmin, Inner.readout, hc]
      simp
    · rw [remaining_eq_sum, remaining_eq_sum, hc]
      simp only [hmin]
      simp [hrem, remaining_eq_sum, hc]
      omega
  · have hc : ¬ i.chunks.isEmpty = true := hce
    obtain ⟨l1, l2, l3⟩ := copyLoop_spec i.chunks (min len i.remaining)
    have hrem : i.remaining = ((i.chunks.map Bytes.data).flatten).length
        + i.staging.data.length := by
      rw [remaining_eq_length_readout, Inner.readout, List.length_append]
    have hst : (copyLoop i.chunks (min len i.remaining)).2.2
        ≤ i.staging.data.length := by
      rw [l3]
      have : min len i.remaining ≤ i.remaining := Nat.min_le_right _ _
      omega
    refine ⟨({ i with
                 chunks := (copyLoop i.chunks (min len i.remaining)).2.1
                 staging := ⟨i.staging.data.drop
                     (copyLoop i.chunks (min len i.remaining)).2.2,
                   i.staging.cap
                     - (copyLoop i.chunks (min len i.remaining)).2.2⟩
                 fresh := i.fresh + 1 },
             ⟨i.fresh, (copyLoop i.chunks (min len i.remaining)).1
               ++ i.staging.data.take
                 (copyLoop i.chunks (min len i.remaining)).2.2⟩),
        ?_, ?_, ?_, ?_⟩
    · unfold Inner.copy_to_bytes
      rw [if_neg hce]
    · simp only [Inner.readout, List.take_append_eq_append_take, ← l1, ← l3]
    · simp only [Inner.readout, List.drop_append_eq_append_drop, ← l2, ← l3]
    · have hread : ({ i with
            chunks := (copyLoop i.chunks (min len i.remaining)).2.1
            staging := ⟨i.staging.data.drop
                (copyLoop i.chunks (min len i.remaining)).2.2,
              i.staging.cap - (copyLoop i.chunks (min len i.remaining)).2.2⟩
            fresh := i.fresh + 1 } : Inner).readout
          = i.readout.drop (min len i.remaining) := by
        simp only [Inner.readout, List.drop_append_eq_append_drop, ← l2, ← l3]
      rw [remaining_eq_length_readout, hread, List.length_drop,
        remaining_eq_length_readout]

/-- C1: for every sequence of writes totaling N bytes (any mix of committed
staging writes via the writable view and zero-copy ingestions via
`put_bytes`) followed by reads totaling N bytes (any mix of front-slice reads
and vectored-gather reads, each followed by the corresponding advance), the
concatenation of the bytes read equals the concatenation of the bytes
written, for every configured chunk size and for both the loose and the
strict variants. -/
theorem c1_round_trip :
    (∀ (L : Nat) (ws : List WOp) (rs : List ROp) (i1 i2 : Inner)
        (out : List Nat),
      Loose.applyWrites (Inner.with_chunk_size L) ws = some i1 →
      Loose.runReads i1 rs = some (out, i2) →
      out.length = (writtenBytes ws).length →
      out = writtenBytes ws)
    ∧ (∀ (L : Nat) (ws : List WOp) (rs : List ROp) (s1 s2 : Strict)
        (out : List Nat),
      Strict.applyWrites (Strict.with_chunk_size_limit L) ws = some s1 →
      Strict.runReads s1 rs = some (out, s2) →
      out.length = (writtenBytes ws).length →
      out = writtenBytes ws) := by
  constructor
  · intro L ws rs i1 i2 out hw hr hlen
    obtain ⟨w1, -⟩ := Loose.applyWrites_some ws _ i1 hw
    rw [readout_with_chunk_size, List.nil_append] at w1
    obtain ⟨r1, -⟩ := Loose.runReads_some rs i1 out i2 hr
    rw [r1, w1, hlen, List.take_length]
  · intro L ws rs s1 s2 out hw hr hlen
    obtain ⟨w1, -⟩ := Strict.applyWrites_readout ws _ s1 hw (Strict.wf_init L)
    have hre : (Strict.with_chunk_size_limit L).inner.readout = [] :=
      readout_with_chunk_size L
    rw [hre, List.nil_append] at w1
    obtain ⟨r1, -⟩ := Strict.runReads_spec rs s1 out s2 hr
    rw [r1, w1, hlen, List.take_length]

/-- Witness for C1: a concrete round trip through both variants, mixing one
committed staging write and one zero-copy ingestion with one front-slice read
and one gather read. -/
theorem c1_round_trip_witness :
    ([1, 2, 3, 4] : List Nat)
        = writtenBytes [WOp.stage [1], WOp.ingest ⟨5, [2, 3, 4]⟩]
      ∧ ([1, 2, 3, 4] : List Nat)
        = writtenBytes [WOp.stage [1], WOp.ingest ⟨5, [2, 3, 4]⟩] :=
  ⟨c1_round_trip.1 2 [WOp.stage [1], WOp.ingest ⟨5, [2, 3, 4]⟩]
      [ROp.fromFront 1, ROp.fromGather 3 3]
      ⟨⟨[], 1⟩, [⟨0, [1]⟩, ⟨5, [2, 3, 4]⟩], 2, 1⟩
      ⟨⟨[], 1⟩, [], 2, 1⟩ [1, 2, 3, 4]
      (by decide) (by decide) (by decide),
    c1_round_trip.2 2 [WOp.stage [1], WOp.ingest ⟨5, [2, 3, 4]⟩]
      [ROp.fromFront 1, ROp.fromGather 3 3]
      ⟨⟨⟨[], 1⟩, [⟨0, [1]⟩, ⟨5, [2, 3]⟩, ⟨5, [4]⟩], 2, 1⟩, 2⟩
      ⟨⟨⟨[], 1⟩, [], 2, 1⟩, 2⟩ [1, 2, 3, 4]
      (by decide) (by decide) (by decide)⟩

/-- C2: strict `put_bytes` on a non-empty source of length `n` with limit
`L > 0` first flushes the staging buffer and then appends `⌈n / L⌉` chunks
whose concatenation equals the input, every chunk except the last having
length exactly `L` and every appended chunk having length at most `L`;
consequently, over every trace of strict-variant operations from a fresh
buffer, every queued chunk (the staging remainder is not queued) has length
at most `L`. -/
theorem c2_strict_put_bytes :
    (∀ (s : Strict) (src : Bytes),
      0 < s.inner.chunk_size → src.data ≠ [] →
      ∃ t, Strict.put_bytes s src = some t
        ∧ t.inner.chunks
            = (Inner.flush s.inner).chunks ++ splitAll s.inner.chunk_size src
        ∧ t.inner.staging.data = []
        ∧ ((splitAll s.inner.chunk_size src).map Bytes.data).flatten = src.data
        ∧ (splitAll s.inner.chunk_size src).length
            = (src.data.length + s.inner.chunk_size - 1) / s.inner.chunk_size
        ∧ (∀ c ∈ splitAll s.inner.chunk_size src,
            c.data.length ≤ s.inner.chunk_size)
        ∧ (∀ c ∈ (splitAll s.inner.chunk_size src).dropLast,
            c.data.length = s.inner.chunk_size))
    ∧ (∀ (L : Nat) (ops : List SOp) (t : Strict),
      Strict.run (Strict.with_chunk_size_limit L) ops = some t →
      ∀ c ∈ t.inner.chunks, c.data.length ≤ L) := by
  constructor
  · intro s src hL hne
    have hne2 : ¬ src.data.isEmpty := by
      simpa [List.isEmpty_iff] using hne
    have h0 : s.inner.chunk_size ≠ 0 := Nat.pos_iff_ne_zero.mp hL
    obtain ⟨f1, f2, f3, f4⟩ := splitAll_spec s.inner.chunk_size hL src
    refine ⟨_, Strict.put_bytes_eq s src h0 hne2, rfl, ?_, f1,
      f4 hne, f2, f3⟩
    exact staging_data_flush s.inner
  · intro L ops t h c hc
    obtain ⟨⟨-, -, hw3⟩, hcs⟩ :=
      Strict.run_wf ops (Strict.with_chunk_size_limit L) t h (Strict.wf_init L)
    have : t.inner.chunk_size = L := hcs
    rw [← this]
    exact hw3 c hc

/-- Witness for C2: splitting a 3-byte ingestion with limit 2 yields the
chunks `[1,2]` and `[3]` after the (empty) flush; and a concrete strict trace
leaves only chunks of length at most 2. -/
theorem c2_strict_put_bytes_witness :
    (∃ t, Strict.put_bytes (Strict.with_chunk_size_limit 2) ⟨5, [1, 2, 3]⟩
          = some t
        ∧ t.inner.chunks
            = (Inner.flush (Strict.with_chunk_size_limit 2).inner).chunks
              ++ splitAll (Strict.with_chunk_size_limit 2).inner.chunk_size
                  ⟨5, [1, 2, 3]⟩
        ∧ t.inner.staging.data = []
        ∧ ((splitAll (Strict.with_chunk_size_limit 2).inner.chunk_size
              ⟨5, [1, 2, 3]⟩).map Bytes.data).flatten = [1, 2, 3]
        ∧ (splitAll (Strict.with_chunk_size_limit 2).inner.chunk_size
              ⟨5, [1, 2, 3]⟩).length
            = (([1, 2, 3] : List Nat).length
                + (Strict.with_chunk_size_limit 2).inner.chunk_size - 1)
              / (Strict.with_chunk_size_limit 2).inner.chunk_size
        ∧ (∀ c ∈ splitAll (Strict.with_chunk_size_limit 2).inner.chunk_size
              ⟨5, [1, 2, 3]⟩,
            c.data.length ≤ (Strict.with_chunk_size_limit 2).inner.chunk_size)
        ∧ (∀ c ∈ (splitAll (Strict.with_chunk_size_limit 2).inner.chunk_size
              ⟨5, [1, 2, 3]⟩).dropLast,
            c.data.length = (Strict.with_chunk_size_limit 2).inner.chunk_size))
      ∧ (∀ c ∈ (⟨⟨⟨[], 1⟩, [⟨5, [3]⟩, ⟨5, [4]⟩], 2, 1⟩, 2⟩ : Strict).inner.chunks,
          c.data.length ≤ 2) :=
  ⟨c2_strict_put_bytes.1 (Strict.with_chunk_size_limit 2) ⟨5, [1, 2, 3]⟩
      (by decide) (by decide),
    c2_strict_put_bytes.2 2
      [SOp.stage [1], SOp.ingest ⟨5, [2, 3, 4]⟩, SOp.adv 2]
      ⟨⟨⟨[], 1⟩, [⟨5, [3]⟩, ⟨5, [4]⟩], 2, 1⟩, 2⟩ (by decide)⟩

/-- C3: `remaining` equals the staging length plus the sum of the queued
chunk lengths; after writing N bytes from a fresh loose buffer and advancing
a total of M bytes, `remaining` equals `N - M` (and `M ≤ N`); and every
write — a committed staging write or a zero-copy ingestion — increases
`remaining` by exactly the number of bytes written. -/
theorem c3_remaining_occupancy :
    (∀ i : Inner, i.remaining
        = i.staging.data.length + (i.chunks.map (fun c => c.data.length)).sum)
    ∧ (∀ (L : Nat) (ws : List WOp) (cs : List Nat) (i1 i2 : Inner),
      Loose.applyWrites (Inner.with_chunk_size L) ws = some i1 →
      Loose.runAdvances i1 cs = some i2 →
      i1.remaining = (writtenBytes ws).length
        ∧ cs.sum ≤ (writtenBytes ws).length
        ∧ i2.remaining = (writtenBytes ws).length - cs.sum)
    ∧ (∀ (i : Inner) (bs : List Nat) (j : Inner),
      Loose.stage_write i bs = some j →
      j.remaining = i.remaining + bs.length)
    ∧ (∀ (i : Inner) (b : Bytes),
      (Loose.put_bytes i b).remaining = i.remaining + b.data.length) := by
  refine ⟨remaining_eq_sum, ?_, ?_, ?_⟩
  · intro L ws cs i1 i2 hw hr
    obtain ⟨w1, -⟩ := Loose.applyWrites_some ws _ i1 hw
    rw [readout_with_chunk_size, List.nil_append] at w1
    have hrem1 : i1.remaining = (writtenBytes ws).length := by
      rw [remaining_eq_length_readout, w1]
    obtain ⟨-, r2, r3⟩ := Loose.runAdvances_some cs i1 i2 hr
    rw [hrem1] at r2 r3
    exact ⟨hrem1, r2, r3⟩
  · intro i bs j h
    obtain ⟨h1, -⟩ := Loose.stage_write_some i bs j h
    rw [remaining_eq_length_readout, remaining_eq_length_readout, h1,
      List.length_append]
  · intro i b
    rw [remaining_eq_length_readout, remaining_eq_length_readout,
      Loose.put_bytes_readout, List.length_append]

/-- Witness for C3: a concrete trace writing 4 bytes and advancing 3 leaves
`remaining = 1`; a concrete committed write and ingestion each grow
`remaining` by their byte count. -/
theorem c3_remaining_occupancy_witness :
    ((⟨⟨[], 1⟩, [⟨0, [1]⟩, ⟨5, [2, 3, 4]⟩], 2, 1⟩ : Inner).remaining
          = (writtenBytes [WOp.stage [1], WOp.ingest ⟨5, [2, 3, 4]⟩]).length
        ∧ ([3] : List Nat).sum
            ≤ (writtenBytes [WOp.stage [1], WOp.ingest ⟨5, [2, 3, 4]⟩]).length
        ∧ (⟨⟨[], 1⟩, [⟨5, [4]⟩], 2, 1⟩ : Inner).remaining
            = (writtenBytes [WOp.stage [1], WOp.ingest ⟨5, [2, 3, 4]⟩]).length
              - ([3] : List Nat).sum)
      ∧ (⟨⟨[1, 2], 4⟩, [], 8, 0⟩ : Inner).remaining
          = (⟨⟨[1], 4⟩, [], 8, 0⟩ : Inner).remaining + ([2] : List Nat).length :=
  ⟨c3_remaining_occupancy.2.1 2 [WOp.stage [1], WOp.ingest ⟨5, [2, 3, 4]⟩]
      [3] ⟨⟨[], 1⟩, [⟨0, [1]⟩, ⟨5, [2, 3, 4]⟩], 2, 1⟩
      ⟨⟨[], 1⟩, [⟨5, [4]⟩], 2, 1⟩ (by decide) (by decide),
    c3_remaining_occupancy.2.2.1 ⟨⟨[1], 4⟩, [], 8, 0⟩ [2]
      ⟨⟨[1, 2], 4⟩, [], 8, 0⟩ (by decide)⟩

/-- C4 counterexample: in the loose variant, a commit (`advance_mut`) that
brings the staging length to the configured chunk size does NOT flush: with
chunk size 4 and staging `[9,9,9]`, committing one more byte leaves the chunk
queue empty and the staging buffer non-empty at length 4 ≥ chunk size,
contradicting the claim that such a commit moves the staging content to a new
chunk and empties the staging buffer. -/
theorem c4_counterexample :
    Loose.advance_mut ⟨⟨[9, 9, 9], 8⟩, [], 4, 0⟩ [7]
        = some ⟨⟨[9, 9, 9, 7], 8⟩, [], 4, 0⟩
      ∧ (⟨⟨[9, 9, 9, 7], 8⟩, [], 4, 0⟩ : Inner).chunk_size
          ≤ (⟨⟨[9, 9, 9, 7], 8⟩, [], 4, 0⟩ : Inner).staging.data.length
      ∧ (⟨⟨[9, 9, 9, 7], 8⟩, [], 4, 0⟩ : Inner).chunks = []
      ∧ (⟨⟨[9, 9, 9, 7], 8⟩, [], 4, 0⟩ : Inner).staging.data ≠ [] := by
  decide

/-- C4 (amended): in the loose variant, committing written bytes never
flushes by itself, regardless of the resulting staging length: a successful
`advance_mut` only appends the committed bytes to the staging buffer, leaving
the chunk queue unchanged; the staging content is split off to a chunk only
by `flush`/`put_bytes`/`into_chunks` or by the reservation step run when a
new writable view is requested. -/
theorem c4_commit_never_flushes :
    ∀ (i : Inner) (bs : List Nat) (j : Inner),
      Loose.advance_mut i bs = some j →
      j.chunks = i.chunks ∧ j.staging.data = i.staging.data ++ bs
        ∧ j.chunk_size = i.chunk_size := by
  intro i bs j h
  obtain ⟨-, h2, h3, h4, -⟩ := Loose.advance_mut_some i bs j h
  exact ⟨h2, h3, h4⟩

/-- Witness for the amended C4 at the input of the counterexample. -/
theorem c4_commit_never_flushes_witness :
    (⟨⟨[9, 9, 9, 7], 8⟩, [], 4, 0⟩ : Inner).chunks
        = (⟨⟨[9, 9, 9], 8⟩, [], 4, 0⟩ : Inner).chunks
      ∧ (⟨⟨[9, 9, 9, 7], 8⟩, [], 4, 0⟩ : Inner).staging.data
          = (⟨⟨[9, 9, 9], 8⟩, [], 4, 0⟩ : Inner).staging.data ++ [7]
      ∧ (⟨⟨[9, 9, 9, 7], 8⟩, [], 4, 0⟩ : Inner).chunk_size
          = (⟨⟨[9, 9, 9], 8⟩, [], 4, 0⟩ : Inner).chunk_size :=
  c4_commit_never_flushes ⟨⟨[9, 9, 9], 8⟩, [], 4, 0⟩ [7]
    ⟨⟨[9, 9, 9, 7], 8⟩, [], 4, 0⟩ (by decide)

/-- C5: `advance cnt` with `cnt ≤ remaining` completes without a contract
violation and consumes exactly the first `cnt` unread bytes — removing `cnt`
bytes from the front of the chunk-queue content and, once the chunks are
exhausted, advancing the staging read offset by the remainder — while
`advance cnt` with `cnt > remaining` is a contract violation (panic,
modelled as `none`). -/
theorem c5_advance_contract :
    ∀ (i : Inner) (cnt : Nat),
      (cnt ≤ i.remaining →
        ∃ r, Inner.advance i cnt = some r
          ∧ r.1.readout = i.readout.drop cnt
          ∧ r.1.remaining = i.remaining - cnt
          ∧ (r.1.chunks.map Bytes.data).flatten
              = ((i.chunks.map Bytes.data).flatten).drop cnt
          ∧ r.1.staging.data
              = i.staging.data.drop
                  (cnt - ((i.chunks.map Bytes.data).flatten).length))
      ∧ (i.remaining < cnt → Inner.advance i cnt = none) := by
  intro i cnt
  constructor
  · intro hle
    have hs : (Inner.advance i cnt).isSome :=
      (advance_isSome_iff i cnt).mpr hle
    cases hadv : Inner.advance i cnt with
    | none => rw [hadv] at hs; cases hs
    | some r =>
      obtain ⟨a1, a2, a3, -, -, -, -, -⟩ := advance_some i cnt r hadv
      refine ⟨r, rfl, a1, ?_, a2, a3⟩
      rw [remaining_eq_length_readout, remaining_eq_length_readout, a1,
        List.length_drop]
  · intro hlt
    cases hadv : Inner.advance i cnt with
    | none => rfl
    | some r =>
      have hs : (Inner.advance i cnt).isSome := by rw [hadv]; rfl
      have := (advance_isSome_iff i cnt).mp hs
      omega

/-- Witness for C5: advancing 3 bytes through a 2-byte chunk and into the
staging buffer; and advancing 5 > remaining = 4 is a contract violation. -/
theorem c5_advance_contract_witness :
    (∃ r, Inner.advance ⟨⟨[5, 6], 4⟩, [⟨1, [1, 2]⟩], 3, 0⟩ 3 = some r
        ∧ r.1.readout
            = (⟨⟨[5, 6], 4⟩, [⟨1, [1, 2]⟩], 3, 0⟩ : Inner).readout.drop 3
        ∧ r.1.remaining
            = (⟨⟨[5, 6], 4⟩, [⟨1, [1, 2]⟩], 3, 0⟩ : Inner).remaining - 3
        ∧ (r.1.chunks.map Bytes.data).flatten
            = ((((⟨⟨[5, 6], 4⟩, [⟨1, [1, 2]⟩], 3, 0⟩ : Inner)).chunks.map
                Bytes.data).flatten).drop 3
        ∧ r.1.staging.data
            = (⟨⟨[5, 6], 4⟩, [⟨1, [1, 2]⟩], 3, 0⟩ : Inner).staging.data.drop
                (3 - ((((⟨⟨[5, 6], 4⟩, [⟨1, [1, 2]⟩], 3, 0⟩ : Inner)).chunks.map
                  Bytes.data).flatten).length))
      ∧ Inner.advance ⟨⟨[5, 6], 4⟩, [⟨1, [1, 2]⟩], 3, 0⟩ 5 = none :=
  ⟨(c5_advance_contract ⟨⟨[5, 6], 4⟩, [⟨1, [1, 2]⟩], 3, 0⟩ 3).1 (by decide),
    (c5_advance_contract ⟨⟨[5, 6], 4⟩, [⟨1, [1, 2]⟩], 3, 0⟩ 5).2 (by decide)⟩

/-- C6: the vectored gather with a `k`-entry destination fills entry `j` with
the bytes of the `j`-th queued chunk for every `j < min (number of chunks) k`;
when all chunks fit and an entry remains and the staging buffer is non-empty,
the descriptor list is exactly the chunks followed by the staging bytes; and
the returned count (the number of descriptors) is `min (number of chunks) k`
plus one for the staging entry when present.  The operation reads the state
only (`chunks_vectored` is a function of the state returning descriptors),
so the buffer is unchanged by the call. -/
theorem c6_gather :
    ∀ (i : Inner) (k : Nat),
      (∀ j, j < min i.chunks.length k →
        (Inner.chunks_vectored i k)[j]? = (i.chunks.map Bytes.data)[j]?)
      ∧ (i.chunks.length < k → i.staging.data ≠ [] →
        Inner.chunks_vectored i k = i.chunks.map Bytes.data ++ [i.staging.data])
      ∧ (Inner.chunks_vectored i k).length
          = min i.chunks.length k
            + (if i.chunks.length < k ∧ i.staging.data ≠ [] then 1 else 0) := by
  intro i k
  have hfl : ((i.chunks.take k).map Bytes.data).length = min i.chunks.length k := by
    simp [List.length_take, Nat.min_comm]
  refine ⟨?_, ?_, ?_⟩
  · intro j hj
    unfold Inner.chunks_vectored
    by_cases hcond : ((i.chunks.take k).map Bytes.data).length < k
        ∧ ¬ i.staging.data.isEmpty
    · rw [if_pos hcond, List.getElem?_append]
      rw [if_pos (by omega : j < ((i.chunks.take k).map Bytes.data).length)]
      rw [List.map_take, List.getElem?_take, if_pos (by omega : j < k)]
    · rw [if_neg hcond]
      rw [List.map_take, List.getElem?_take, if_pos (by omega : j < k)]
  · intro hlt hne
    unfold Inner.chunks_vectored
    rw [List.take_of_length_le (Nat.le_of_lt hlt)]
    rw [if_pos ⟨by simp only [List.length_map]; omega,
      by simpa [List.isEmpty_iff] using hne⟩]
  · unfold Inner.chunks_vectored
    by_cases hcond : ((i.chunks.take k).map Bytes.data).length < k
        ∧ ¬ i.staging.data.isEmpty
    · rw [if_pos hcond]
      have hc2 : i.chunks.length < k ∧ i.staging.data ≠ [] := by
        constructor
        · have := hcond.1
          omega
        · have := hcond.2
          simpa [List.isEmpty_iff] using this
      rw [if_pos hc2, List.length_append, hfl]
      simp
    · rw [if_neg hcond]
      have hc2 : ¬ (i.chunks.length < k ∧ i.staging.data ≠ []) := by
        intro hc
        apply hcond
        constructor
        · omega
        · simpa [List.isEmpty_iff] using hc.2
      rw [if_neg hc2, hfl]
      simp

/-- Witness for C6 at a concrete state with one queued chunk, non-empty
staging and a two-entry destination. -/
theorem c6_gather_witness :
    (Inner.chunks_vectored ⟨⟨[9], 4⟩, [⟨1, [1, 2]⟩], 5, 0⟩ 2)[0]?
        = ((⟨⟨[9], 4⟩, [⟨1, [1, 2]⟩], 5, 0⟩ : Inner).chunks.map Bytes.data)[0]?
      ∧ Inner.chunks_vectored ⟨⟨[9], 4⟩, [⟨1, [1, 2]⟩], 5, 0⟩ 2
          = (⟨⟨[9], 4⟩, [⟨1, [1, 2]⟩], 5, 0⟩ : Inner).chunks.map Bytes.data
            ++ [(⟨⟨[9], 4⟩, [⟨1, [1, 2]⟩], 5, 0⟩ : Inner).staging.data] :=
  ⟨(c6_gather ⟨⟨[9], 4⟩, [⟨1, [1, 2]⟩], 5, 0⟩ 2).1 0 (by decide),
    (c6_gather ⟨⟨[9], 4⟩, [⟨1, [1, 2]⟩], 5, 0⟩ 2).2.1 (by decide) (by decide)⟩

/-- C7 counterexample: with no queued chunks, staging `[7]` (so
`remaining = 1`) and `len = 2`, `copy_to_bytes` takes the fast path and is a
contract violation (the staging `copy_to_bytes`/`split_to` panics), instead
of returning the claimed `min(len, remaining) = 1` bytes. -/
theorem c7_counterexample :
    Inner.copy_to_bytes ⟨⟨[7], 4⟩, [], 5, 0⟩ 2 = none
      ∧ (⟨⟨[7], 4⟩, [], 5, 0⟩ : Inner).remaining = 1 ∧ (1 : Nat) < 2 := by
  decide

/-- C7 (amended): `copy_to_bytes len` removes and returns exactly the first
`min(len, remaining)` unread bytes as one owned range and decreases
`remaining` by that amount, provided at least one chunk is queued or
`len ≤ remaining`; in the fast path (no queued chunks) a `len` exceeding the
staging length is a contract violation. -/
theorem c7_copy_to_bytes :
    ∀ (i : Inner) (len : Nat),
      i.chunks ≠ [] ∨ len ≤ i.remaining →
      ∃ r, Inner.copy_to_bytes i len = some r
        ∧ r.2.data = i.readout.take (min len i.remaining)
        ∧ r.1.readout = i.readout.drop (min len i.remaining)
        ∧ r.1.remaining = i.remaining - min len i.remaining :=
  copy_to_bytes_some

/-- Witness for the amended C7: extracting 7 bytes from a buffer holding 3
(one queued chunk plus staging) succeeds and is clamped to 3. -/
theorem c7_copy_to_bytes_witness :
    ∃ r, Inner.copy_to_bytes ⟨⟨[9], 4⟩, [⟨1, [1, 2]⟩], 5, 0⟩ 7 = some r
      ∧ r.2.data
          = (⟨⟨[9], 4⟩, [⟨1, [1, 2]⟩], 5, 0⟩ : Inner).readout.take
              (min 7 (⟨⟨[9], 4⟩, [⟨1, [1, 2]⟩], 5, 0⟩ : Inner).remaining)
      ∧ r.1.readout
          = (⟨⟨[9], 4⟩, [⟨1, [1, 2]⟩], 5, 0⟩ : Inner).readout.drop
              (min 7 (⟨⟨[9], 4⟩, [⟨1, [1, 2]⟩], 5, 0⟩ : Inner).remaining)
      ∧ r.1.remaining
          = (⟨⟨[9], 4⟩, [⟨1, [1, 2]⟩], 5, 0⟩ : Inner).remaining
            - min 7 (⟨⟨[9], 4⟩, [⟨1, [1, 2]⟩], 5, 0⟩ : Inner).remaining :=
  c7_copy_to_bytes ⟨⟨[9], 4⟩, [⟨1, [1, 2]⟩], 5, 0⟩ 7 (Or.inl (by decide))

/-- C8: the strict variant keeps the staging length within the tracked
capacity ceiling `cap`: the writable view is clamped to at most the (updated)
`cap`; a commit whose new staging length would exceed `cap` is rejected by
the assertion, and a successful commit lands within `cap`; when an advance
ends inside the staging buffer having consumed `adv` staging bytes, `cap` is
decremented by exactly `adv` (and `adv ≤ cap` in well-formed states); and
along every successful trace of strict operations from a fresh buffer the
staging length stays within `cap`. -/
theorem c8_strict_cap_invariant :
    (∀ s : Strict, (Strict.bytes_mut s).2 ≤ (Strict.bytes_mut s).1.cap)
    ∧ (∀ (s : Strict) (bs : List Nat),
      s.cap < s.inner.staging.data.length + bs.length →
      Strict.advance_mut s bs = none)
    ∧ (∀ (s : Strict) (bs : List Nat) (t : Strict),
      Strict.advance_mut s bs = some t →
      t.inner.staging.data.length = s.inner.staging.data.length + bs.length
        ∧ t.inner.staging.data.length ≤ t.cap)
    ∧ (∀ (s : Strict) (cnt : Nat) (i2 : Inner) (adv : Nat),
      Inner.advance s.inner cnt = some (i2, AdvanceStopped.InStaging adv) →
      Strict.advance s cnt = some ⟨i2, s.cap - adv⟩ ∧ (s.Wf → adv ≤ s.cap))
    ∧ (∀ (L : Nat) (ops : List SOp) (t : Strict),
      Strict.run (Strict.with_chunk_size_limit L) ops = some t →
      t.inner.staging.data.length ≤ t.cap) := by
  refine ⟨?_, Strict.advance_mut_none, ?_, ?_, ?_⟩
  · intro s
    by_cases hfull : s.inner.staging.data.length = s.cap
    · rw [Strict.bytes_mut_pos s hfull]
      exact Nat.min_le_right _ _
    · rw [Strict.bytes_mut_neg s hfull]
      exact Nat.min_le_right _ _
  · intro s bs t h
    obtain ⟨-, -, a3, -, a5, a6⟩ := Strict.advance_mut_ok s bs t h
    rw [a3, a5, List.length_append]
    exact ⟨rfl, a6⟩
  · intro s cnt i2 adv h
    constructor
    · unfold Strict.advance
      rw [h]
    · intro hwf
      obtain ⟨-, -, -, -, -, a6, -, -⟩ :=
        advance_some s.inner cnt (i2, AdvanceStopped.InStaging adv) h
      obtain ⟨-, hb2, -⟩ := a6 adv rfl
      exact le_trans hb2 hwf.1
  · intro L ops t h
    obtain ⟨⟨hw1, -, -⟩, -⟩ :=
      Strict.run_wf ops (Strict.with_chunk_size_limit L) t h (Strict.wf_init L)
    exact hw1

/-- Witness for C8 at concrete states: the first writable
view of a fresh strict buffer is clamped to `cap = 4`; an over-commit is rejected; a within-bounds
commit lands within `cap`; an advance ending in staging decrements `cap`;
and a concrete trace ends with the staging length within `cap`. -/
theorem c8_strict_cap_invariant_witness :
    (Strict.bytes_mut ⟨⟨⟨[], 0⟩, [], 4, 0⟩, 0⟩).2
        ≤ (Strict.bytes_mut ⟨⟨⟨[], 0⟩, [], 4, 0⟩, 0⟩).1.cap
      ∧ Strict.advance_mut ⟨⟨⟨[1], 4⟩, [], 4, 0⟩, 4⟩ [2, 2, 2, 2] = none
      ∧ ((⟨⟨⟨[1, 2, 2], 4⟩, [], 4, 0⟩, 4⟩ : Strict).inner.staging.data.length
            = (⟨⟨⟨[1], 4⟩, [], 4, 0⟩, 4⟩ : Strict).inner.staging.data.length
              + ([2, 2] : List Nat).length
          ∧ (⟨⟨⟨[1, 2, 2], 4⟩, [], 4, 0⟩, 4⟩ : Strict).inner.staging.data.length
            ≤ (⟨⟨⟨[1, 2, 2], 4⟩, [], 4, 0⟩, 4⟩ : Strict).cap)
      ∧ Strict.advance ⟨⟨⟨[5, 6], 4⟩, [], 3, 0⟩, 3⟩ 1
          = some ⟨⟨⟨[6], 3⟩, [], 3, 0⟩, 3 - 1⟩
      ∧ ((⟨⟨⟨[], 1⟩, [⟨5, [3]⟩, ⟨5, [4]⟩], 2, 1⟩, 2⟩ : Strict).inner.staging.data.length
          ≤ (⟨⟨⟨[], 1⟩, [⟨5, [3]⟩, ⟨5, [4]⟩], 2, 1⟩, 2⟩ : Strict).cap) :=
  ⟨c8_strict_cap_invariant.1 ⟨⟨⟨[], 0⟩, [], 4, 0⟩, 0⟩,
    c8_strict_cap_invariant.2.1 ⟨⟨⟨[1], 4⟩, [], 4, 0⟩, 4⟩ [2, 2, 2, 2]
      (by decide),
    c8_strict_cap_invariant.2.2.1 ⟨⟨⟨[1], 4⟩, [], 4, 0⟩, 4⟩ [2, 2]
      ⟨⟨⟨[1, 2, 2], 4⟩, [], 4, 0⟩, 4⟩ (by decide),
    (c8_strict_cap_invariant.2.2.2.1 ⟨⟨⟨[5, 6], 4⟩, [], 3, 0⟩, 3⟩ 1
      ⟨⟨[6], 3⟩, [], 3, 0⟩ 1 (by decide)).1,
    c8_strict_cap_invariant.2.2.2.2 2
      [SOp.stage [1], SOp.ingest ⟨5, [2, 3, 4]⟩, SOp.adv 2]
      ⟨⟨⟨[], 1⟩, [⟨5, [3]⟩, ⟨5, [4]⟩], 2, 1⟩, 2⟩ (by decide)⟩

/-- C9: ingesting an externally owned `Bytes` value via the loose
`put_bytes` and then draining with the consuming iterator yields that very
`Bytes` value as the final chunk — the same record, including its storage
identifier `sid`, so it references the same underlying storage and no bytes
were copied. -/
theorem c9_zero_copy_ingestion :
    ∀ (i : Inner) (b : Bytes), b.data ≠ [] →
      Inner.into_chunks (Loose.put_bytes i b) = (Inner.flush i).chunks ++ [b] := by
  intro i b hb
  unfold Loose.put_bytes
  rw [if_neg (by simpa [List.isEmpty_iff] using hb)]
  have hstaging : (Inner.flush i).staging.data = [] := staging_data_flush i
  simp [Inner.into_chunks, Inner.push_chunk, hstaging]

/-- Witness for C9: ingesting `⟨42, [7,7]⟩` into a buffer with staged bytes
and a queued chunk; the final element of the consuming iterator is the ingested
value itself (storage id 42 preserved). -/
theorem c9_zero_copy_ingestion_witness :
    Inner.into_chunks
        (Loose.put_bytes ⟨⟨[1, 2], 4⟩, [⟨3, [9]⟩], 8, 0⟩ ⟨42, [7, 7]⟩)
      = (Inner.flush ⟨⟨[1, 2], 4⟩, [⟨3, [9]⟩], 8, 0⟩).chunks ++ [⟨42, [7, 7]⟩] :=
  c9_zero_copy_ingestion ⟨⟨[1, 2], 4⟩, [⟨3, [9]⟩], 8, 0⟩ ⟨42, [7, 7]⟩
    (by decide)

/-- C10: the staging reservation step computes
`cutoff = cap.saturating_add(cap / 2)` from the staging capacity `cap`; if
`cutoff > chunk_size` it flushes the staging content and then requests
`chunk_size` additional bytes, otherwise it requests `chunk_size - cap` —
a subtraction that never underflows, because the branch condition implies
`cap ≤ chunk_size` (for `usize`-representable values). -/
theorem c10_reserve_staging :
    ∀ i : Inner, i.staging.cap ≤ USIZE_MAX → i.chunk_size ≤ USIZE_MAX →
      (usizeSat (i.staging.cap + i.staging.cap / 2) > i.chunk_size →
        Inner.reserve_staging i
          = ({ Inner.flush i with
                staging := BytesMut.reserve (Inner.flush i).staging
                  i.chunk_size },
             (BytesMut.reserve (Inner.flush i).staging i.chunk_size).cap))
      ∧ (¬ usizeSat (i.staging.cap + i.staging.cap / 2) > i.chunk_size →
        i.staging.cap ≤ i.chunk_size
          ∧ Inner.reserve_staging i
            = ({ i with
                  staging := BytesMut.reserve i.staging
                    (i.chunk_size - i.staging.cap) },
               (BytesMut.reserve i.staging
                 (i.chunk_size - i.staging.cap)).cap)) := by
  intro i hcap hcs
  constructor
  · intro hgt
    unfold Inner.reserve_staging
    rw [if_pos hgt]
  · intro hle
    constructor
    · have hmax : USIZE_MAX = 18446744073709551615 := by decide
      simp only [usizeSat, hmax] at hle hcap hcs ⊢
      omega
    · unfold Inner.reserve_staging
      rw [if_neg hle]

/-- Witness for C10: a buffer with staging capacity 8 and chunk size 4 takes
the flush branch; one with capacity 2 and chunk size 4 takes the
subtraction branch with `cap = 2 ≤ 4`. -/
theorem c10_reserve_staging_witness :
    Inner.reserve_staging ⟨⟨[], 8⟩, [], 4, 0⟩ = (⟨⟨[], 8⟩, [], 4, 0⟩, 8)
      ∧ ((⟨⟨[1], 2⟩, [], 4, 0⟩ : Inner).staging.cap ≤ 4
          ∧ Inner.reserve_staging ⟨⟨[1], 2⟩, [], 4, 0⟩
            = (⟨⟨[1], 3⟩, [], 4, 0⟩, 3)) :=
  ⟨(c10_reserve_staging ⟨⟨[], 8⟩, [], 4, 0⟩ (by decide) (by decide)).1
      (by decide),
    (c10_reserve_staging ⟨⟨[1], 2⟩, [], 4, 0⟩ (by decide) (by decide)).2
      (by decide)⟩

end CB
